import Mathlib

/-!
Verification of the transactional export subsystem of the regolith build
pipeline (file_system.go, export.go).

The filesystem is shallowly embedded as a flat store: a list of directory
paths plus a list of file paths with byte contents.  A path is a list of
name components (the Go code works with separator-joined strings and
resolves everything through filepath.Abs; the component list is the same
data with the separators abstracted away).  Every Go os-level call used by
the code under study (os.Stat, os.Rename, os.Remove, os.RemoveAll,
os.MkdirAll, file copy) is modelled as an executable function on this
store.  Cross-volume rename failure, the one environment-dependent
failure the code recovers from, is modelled by an explicit oracle in Env.
Errors are modelled as an inductive type whose constructors carry the
paths that the corresponding Go error messages embed.
-/

namespace Regolith

/-- An absolute filesystem path, as its list of name components. -/
abbrev Path := List String

/-- Generic strict lexicographic order on lists, parametrized by the
element order. -/
def lexLt {α : Type} [DecidableEq α] (lt : α → α → Bool) :
    List α → List α → Bool
  | [], [] => false
  | [], _ :: _ => true
  | _ :: _, [] => false
  | a :: as, b :: bs =>
    if lt a b then true
    else if a = b then lexLt lt as bs
    else false

/-- Comparison of two characters by their code points. -/
def charLt (a b : Char) : Bool := decide (a < b)

/-- The string order used by the Go code (byte-wise comparison of the
UTF-8 encodings, which coincides with codepoint-lexicographic
comparison). -/
def strLt (a b : String) : Bool := lexLt charLt a.data b.data

/-- Non-strict companion of strLt. -/
def strLe (a b : String) : Bool := strLt a b || decide (a = b)

/-- Strict lexicographic order on paths, with a proper prefix ordered
before its extensions.  This is the order in which filepath.WalkDir
(which lists children of every directory in sorted name order) visits
paths, restricted to any set of paths none of which is a prefix of
another (such as the set of files of a well-formed tree). -/
def pathLt : Path → Path → Bool := lexLt strLt

/-- Non-strict companion of pathLt. -/
def pathLe (p q : Path) : Bool := pathLt p q || decide (p = q)

/-- Postorder visiting order on paths: q is visited before r when either
q is a proper descendant of r, or at the first differing component q is
smaller.  A postorder walk with children taken in sorted name order
emits any set of paths (none a duplicate of another) in this order. -/
def postBefore : Path → Path → Prop
  | [], _ => False
  | _ :: _, [] => True
  | a :: as, b :: bs => strLt a b = true ∨ (a = b ∧ postBefore as bs)

instance postBefore.instDecidable : ∀ p q : Path, Decidable (postBefore p q)
  | [], _ => by unfold postBefore; exact inferInstance
  | _ :: _, [] => by unfold postBefore; exact inferInstance
  | a :: as, b :: bs => by
      unfold postBefore
      have := postBefore.instDecidable as bs
      exact inferInstance

/-- Insert a into an le-sorted list, keeping it sorted. -/
def insertSorted {α : Type} (le : α → α → Bool) (a : α) : List α → List α
  | [] => [a]
  | b :: bs => if le a b then a :: b :: bs else b :: insertSorted le a bs

/-- Insertion sort.  The Go code sorts with sort.Strings
(postorderWalkDir) and relies on the sorted traversal order of
filepath.WalkDir; the model sorts with this structurally recursive
function, which produces the same sorted sequence. -/
def insertionSort {α : Type} (le : α → α → Bool) : List α → List α
  | [] => []
  | a :: as => insertSorted le a (insertionSort le as)

/-- File contents: a byte sequence. -/
abbrev Bytes := List Nat

/-- The filesystem store: the set of existing directories and the map
from file paths to contents, both as lists. -/
structure FileSystem where
  dirs : List Path
  files : List (Path × Bytes)
deriving DecidableEq, Repr

/-- Does p exist as a directory. -/
def FileSystem.isDir (fs : FileSystem) (p : Path) : Bool := fs.dirs.contains p

/-- Content of the file at p, when p is a file. -/
def FileSystem.getFile (fs : FileSystem) (p : Path) : Option Bytes :=
  fs.files.lookup p

/-- Does p exist as a file. -/
def FileSystem.isFile (fs : FileSystem) (p : Path) : Bool :=
  (fs.getFile p).isSome

/-- Does p exist at all (os.Stat succeeds). -/
def FileSystem.entryExists (fs : FileSystem) (p : Path) : Bool :=
  fs.isDir p || fs.isFile p

/-- Result of os.Stat in the model: the kind of the entry, if any. -/
inductive StatKind where
  | dirKind
  | fileKind
deriving DecidableEq, Repr

/-- Model of os.Stat: some kind when the entry exists, none when the
stat call fails with IsNotExist.  (Other stat failures cannot occur in
the model.) -/
def osStat (fs : FileSystem) (p : Path) : Option StatKind :=
  if fs.isDir p then some .dirKind
  else if fs.isFile p then some .fileKind
  else none

/-- If q is a direct child path of p, its final name component. -/
def directChild (p q : Path) : Option String :=
  if p.isPrefixOf q && q.length == p.length + 1 then q.getLast? else none

/-- The names found in directory p (model of f.Readdirnames, order of
the underlying entry lists). -/
def childNamesRaw (fs : FileSystem) (p : Path) : List String :=
  ((fs.dirs.filterMap fun d => directChild p d) ++
    (fs.files.filterMap fun f => directChild p f.1)).dedup

/-- Well-formedness of the store: the root exists, entries are unique,
no path is both a file and a directory, and the parent of every entry is
a directory in the store. -/
structure WellFormed (fs : FileSystem) : Prop where
  root_dir : [] ∈ fs.dirs
  dirs_nodup : fs.dirs.Nodup
  files_nodup : (fs.files.map Prod.fst).Nodup
  disjoint : ∀ p ∈ fs.dirs, p ∉ fs.files.map Prod.fst
  parent_dir : ∀ p ∈ fs.dirs, p ≠ [] → p.dropLast ∈ fs.dirs
  file_nonroot : ∀ p ∈ fs.files.map Prod.fst, p ≠ []
  parent_file : ∀ p ∈ fs.files.map Prod.fst, p.dropLast ∈ fs.dirs

/-- Errors, one constructor per error site of the studied code, carrying
the path data that the corresponding Go error message interpolates.
WrapError and friends keep the failure identity; wrapping with further
context is the wrapped constructor. -/
inductive Err where
  | statAny (p : Path)
  | statNotExist (p : Path)
  | statExists (p : Path)
  | notADir (p : Path)
  | notADirSubpath (p : Path)
  | emptyOrNewDir (p : Path)
  | mkdirFailed (p : Path)
  | renameFailed (src tgt : Path)
  | removeFailed (p : Path)
  | openFailed (p : Path)
  | createFailed (p : Path)
  | readFailed (p : Path)
  | copyFailed (src tgt : Path)
  | notRegolithFile (rel : List Char)
  | bothWorldNameAndPath
  | worldTargetNeedsNameOrPath
  | invalidExportTarget (t : String)
  | wrapped (e : Err)
deriving DecidableEq, Repr

deriving instance DecidableEq for Except

/-- The environment: which rename calls fail for reasons outside the
model (in practice: source and target on different storage volumes).
os.Rename consults this oracle before doing anything. -/
structure Env where
  renameFails : Path → Path → Bool

/-- The environment in which every rename that is possible in the model
succeeds. -/
def noFailEnv : Env := ⟨fun _ _ => false⟩

/-- Remove the single entry p (no recursion). -/
def removeEntry (fs : FileSystem) (p : Path) : FileSystem :=
  ⟨fs.dirs.filter fun d => decide (d ≠ p),
   fs.files.filter fun f => decide (f.1 ≠ p)⟩

/-- Model of os.RemoveAll: removes p and everything below it; succeeds
also when p does not exist. -/
def osRemoveAll (fs : FileSystem) (p : Path) : FileSystem :=
  ⟨fs.dirs.filter fun d => !(p.isPrefixOf d),
   fs.files.filter fun f => !(p.isPrefixOf f.1)⟩

/-- Model of os.Remove: removes a file or an empty directory, fails
otherwise. -/
def osRemove (fs : FileSystem) (p : Path) : Except Err FileSystem :=
  if fs.isFile p then .ok (removeEntry fs p)
  else if fs.isDir p then
    if childNamesRaw fs p |>.isEmpty then .ok (removeEntry fs p)
    else .error (.removeFailed p)
  else .error (.removeFailed p)

/-- All prefixes of p of length 1 .. p.length, shortest first. -/
def properPrefixes (p : Path) : List Path :=
  (List.range p.length).map fun i => p.take (i + 1)

/-- Model of os.MkdirAll: creates every missing directory on the way to
p; fails (before creating anything) when some prefix of p exists as a
file. -/
def osMkdirAll (fs : FileSystem) (p : Path) : Except Err FileSystem :=
  if (properPrefixes p).any (fun q => fs.isFile q) then .error (.mkdirFailed p)
  else .ok ⟨fs.dirs ++ (properPrefixes p).filter (fun q => !(fs.isDir q)), fs.files⟩

/-- Replace the prefix src of q by tgt. -/
def rebase (src tgt q : Path) : Path := tgt ++ q.drop src.length

/-- Relocate the whole subtree rooted at src to tgt (the raw effect of a
successful directory rename). -/
def moveSubtree (fs : FileSystem) (src tgt : Path) : FileSystem :=
  ⟨fs.dirs.map fun d => if src.isPrefixOf d then rebase src tgt d else d,
   fs.files.map fun f =>
     if src.isPrefixOf f.1 then (rebase src tgt f.1, f.2) else f⟩

/-- Write content c at file path p, replacing an existing file or
appending a new entry (the effect of os.Create plus writing). -/
def setFileList (files : List (Path × Bytes)) (p : Path) (c : Bytes) :
    List (Path × Bytes) :=
  if files.any (fun f => decide (f.1 = p)) then
    files.map fun f => if f.1 = p then (p, c) else f
  else files ++ [(p, c)]

/-- setFileList on the whole store. -/
def setFile (fs : FileSystem) (p : Path) (c : Bytes) : FileSystem :=
  ⟨fs.dirs, setFileList fs.files p c⟩

/-- Model of os.Rename.  A file target is silently replaced when the
source is a file (rename(2) semantics, also used by Go on Windows via
MOVEFILE_REPLACE_EXISTING); a directory target must be an empty
directory.  The parent of the target must exist.  The Env oracle makes
the rename fail regardless (cross-volume move). -/
def osRename (env : Env) (fs : FileSystem) (src tgt : Path) :
    Except Err FileSystem :=
  if env.renameFails src tgt then .error (.renameFailed src tgt)
  else if fs.isFile src then
    if fs.isDir tgt then .error (.renameFailed src tgt)
    else if !(fs.isDir tgt.dropLast) then .error (.renameFailed src tgt)
    else
      match fs.getFile src with
      | none => .error (.renameFailed src tgt)
      | some c => .ok (setFile (removeEntry (removeEntry fs tgt) src) tgt c)
  else if fs.isDir src then
    if src = tgt then .ok fs
    else if src.isPrefixOf tgt then .error (.renameFailed src tgt)
    else if fs.isFile tgt then .error (.renameFailed src tgt)
    else if fs.isDir tgt && !(childNamesRaw fs tgt |>.isEmpty) then
      .error (.renameFailed src tgt)
    else if !(fs.isDir tgt.dropLast) then .error (.renameFailed src tgt)
    else .ok (moveSubtree (removeEntry fs tgt) src tgt)
  else .error (.renameFailed src tgt)

/-- Model of IsDirEmpty from file_system.go. -/
def IsDirEmpty (fs : FileSystem) (p : Path) : Except Err Bool :=
  if !(fs.entryExists p) then .error (.statNotExist p)
  else if !(fs.isDir p) then .error (.notADir p)
  else .ok (childNamesRaw fs p |>.isEmpty)

/-- Model of CopyFile from file_system.go: creates the parent directory
of the target, then streams the source into a freshly created target
file.  When the source is a directory the os.Create of the target has
already happened when the read fails (read(2) on a directory fails), so
the empty target file is left behind. -/
def CopyFile (fs : FileSystem) (src tgt : Path) :
    Except Err Unit × FileSystem :=
  match osMkdirAll fs tgt.dropLast with
  | .error _ => (.error (.mkdirFailed tgt), fs)
  | .ok fs1 =>
    if fs1.isDir src then
      if fs1.isDir tgt then (.error (.createFailed tgt), fs1)
      else (.error (.readFailed src), setFile fs1 tgt [])
    else
      match fs1.getFile src with
      | none => (.error (.openFailed src), fs1)
      | some c =>
        if fs1.isDir tgt then (.error (.createFailed tgt), fs1)
        else (.ok (), setFile fs1 tgt c)

/-- Model of ForceMoveFile from file_system.go: tries os.Rename first;
on failure falls back to copy-then-remove (for a directory source:
MkdirAll at the target, an os.Remove of the source whose error the Go
code checks against a stale variable and therefore drops, then
os.RemoveAll of the source). -/
def ForceMoveFile (env : Env) (fs : FileSystem) (src tgt : Path) :
    Except Err Unit × FileSystem :=
  match osRename env fs src tgt with
  | .ok fs1 => (.ok (), fs1)
  | .error _ =>
    match osStat fs src with
    | none => (.error (.statAny src), fs)
    | some .dirKind =>
      match osMkdirAll fs tgt with
      | .error _ => (.error (.mkdirFailed tgt), fs)
      | .ok fs1 =>
        let fs2 := match osRemove fs1 src with
          | .ok f => f
          | .error _ => fs1
        (.ok (), osRemoveAll fs2 src)
    | some .fileKind =>
      match CopyFile fs src tgt with
      | (.error _, fs1) => (.error (.copyFailed src tgt), fs1)
      | (.ok _, fs1) => (.ok (), osRemoveAll fs1 src)

/-- One recorded inverse action.  The Go code stores closures; each
closure produced by the code is one of these four shapes, so the undo
log is embedded as this inductive type interpreted by runUndoOp. -/
inductive UndoOp where
  | forceMove (src tgt : Path)
  | renameBack (src tgt : Path)
  | removeTarget (p : Path)
  | removeAllOf (p : Path)
deriving DecidableEq, Repr

/-- The RevertableFsOperations struct of file_system.go: the undo log
(in push order, newest last, as the Go slice), the backup directory and
the backup-file counter. -/
structure RevertableFsOperations where
  undoOperations : List UndoOp
  backupPath : Path
  backupFileCounter : Nat
deriving DecidableEq, Repr

/-- Execute one recorded inverse action (the body of the corresponding
Go closure). -/
def runUndoOp (env : Env) (op : UndoOp) (fs : FileSystem) :
    Except Err Unit × FileSystem :=
  match op with
  | .forceMove src tgt =>
    match ForceMoveFile env fs src tgt with
    | (.ok _, fs1) => (.ok (), fs1)
    | (.error e, fs1) => (.error (.wrapped e), fs1)
  | .renameBack src tgt =>
    match osRename env fs tgt src with
    | .ok fs1 => (.ok (), fs1)
    | .error e => (.error e, fs)
  | .removeTarget p =>
    match osRemove fs p with
    | .ok fs1 => (.ok (), fs1)
    | .error e => (.error e, fs)
  | .removeAllOf p => (.ok (), osRemoveAll fs p)

namespace RevertableFsOperations

/-- The undo loop over the log in most-recent-first order.  The Go loop
truncates the slice before executing each popped closure, so on failure
the remaining (older) operations are what is left in the log. -/
def undoRev (env : Env) :
    List UndoOp → FileSystem → Except Err Unit × List UndoOp × FileSystem
  | [], fs => (.ok (), [], fs)
  | op :: rest, fs =>
    match runUndoOp env op fs with
    | (.ok _, fs1) => undoRev env rest fs1
    | (.error e, fs1) => (.error (.wrapped e), rest, fs1)

/-- Undo from file_system.go: pop and execute recorded inverse actions
last-in-first-out until the log is empty or one of them fails. -/
def Undo (env : Env) (r : RevertableFsOperations) (fs : FileSystem) :
    Except Err Unit × RevertableFsOperations × FileSystem :=
  match undoRev env r.undoOperations.reverse fs with
  | (res, restRev, fs1) => (res, { r with undoOperations := restRev.reverse }, fs1)

/-- getTempFilePath from file_system.go: the backup slot for one backed
up entry.  Note that the Go code reads backupFileCounter but never
increments it. -/
def getTempFilePath (r : RevertableFsOperations) (base : Path) : Path :=
  r.backupPath ++ [toString r.backupFileCounter ++ "_" ++ base.getLastD ""]

/-- Delete from file_system.go: a missing path succeeds with nothing
recorded; an existing entry is force-moved to a backup slot and a
restoring inverse is recorded. -/
def Delete (env : Env) (r : RevertableFsOperations) (fs : FileSystem)
    (p : Path) : Except Err Unit × RevertableFsOperations × FileSystem :=
  match osStat fs p with
  | none => (.ok (), r, fs)
  | some _ =>
    let tmpPath := getTempFilePath r p
    match ForceMoveFile env fs p tmpPath with
    | (.error e, fs1) => (.error (.wrapped e), r, fs1)
    | (.ok _, fs1) =>
      (.ok (),
       { r with undoOperations := r.undoOperations ++ [.forceMove tmpPath p] },
       fs1)

/-- moveOrCopyAssertions from file_system.go: the source must exist and
the target must not. -/
def moveOrCopyAssertions (fs : FileSystem) (src tgt : Path) :
    Except Err Unit :=
  match osStat fs src with
  | none => .error (.statNotExist src)
  | some _ =>
    match osStat fs tgt with
    | some _ => .error (.statExists tgt)
    | none => .ok ()

/-- The private move helper: make the parent directory of the target,
rename, and record the reverse rename. -/
def movePriv (env : Env) (r : RevertableFsOperations) (fs : FileSystem)
    (src tgt : Path) : Except Err Unit × RevertableFsOperations × FileSystem :=
  match osMkdirAll fs tgt.dropLast with
  | .error _ => (.error (.mkdirFailed tgt), r, fs)
  | .ok fs1 =>
    match osRename env fs1 src tgt with
    | .error e => (.error (.wrapped e), r, fs1)
    | .ok fs2 =>
      (.ok (),
       { r with undoOperations := r.undoOperations ++ [.renameBack src tgt] },
       fs2)

/-- The private copy helper: CopyFile and record removal of the new
copy. -/
def copyPriv (r : RevertableFsOperations) (fs : FileSystem)
    (src tgt : Path) : Except Err Unit × RevertableFsOperations × FileSystem :=
  match CopyFile fs src tgt with
  | (.error e, fs1) => (.error e, r, fs1)
  | (.ok _, fs1) =>
    (.ok (),
     { r with undoOperations := r.undoOperations ++ [.removeTarget tgt] },
     fs1)

/-- Move from file_system.go. -/
def Move (env : Env) (r : RevertableFsOperations) (fs : FileSystem)
    (src tgt : Path) : Except Err Unit × RevertableFsOperations × FileSystem :=
  match moveOrCopyAssertions fs src tgt with
  | .error e => (.error e, r, fs)
  | .ok _ => movePriv env r fs src tgt

/-- Copy from file_system.go. -/
def Copy (env : Env) (r : RevertableFsOperations) (fs : FileSystem)
    (src tgt : Path) : Except Err Unit × RevertableFsOperations × FileSystem :=
  match moveOrCopyAssertions fs src tgt with
  | .error e => (.error e, r, fs)
  | .ok _ => copyPriv r fs src tgt

/-- MoveOrCopy from file_system.go: try the move first and fall back to
the copy when the rename step failed.  Note that the failed move may
already have created the parent directory chain of the target; the copy
runs on that state, as in the Go code. -/
def MoveOrCopy (env : Env) (r : RevertableFsOperations) (fs : FileSystem)
    (src tgt : Path) : Except Err Unit × RevertableFsOperations × FileSystem :=
  match moveOrCopyAssertions fs src tgt with
  | .error e => (.error e, r, fs)
  | .ok _ =>
    match movePriv env r fs src tgt with
    | (.ok _, r1, fs1) => (.ok (), r1, fs1)
    | (.error _, r1, fs1) => copyPriv r1 fs1 src tgt

end RevertableFsOperations

/-- The prefix scan of GetFirstUnexistingSubpath: the first prefix that
does not exist, an error when an existing prefix is not a directory,
none when the whole path exists. -/
def firstUnexisting (fs : FileSystem) : List Path → Except Err (Option Path)
  | [] => .ok none
  | q :: rest =>
    if fs.entryExists q then
      if fs.isDir q then firstUnexisting fs rest
      else .error (.notADirSubpath q)
    else .ok (some q)

/-- GetFirstUnexistingSubpath from file_system.go, on the prefixes of
the path from shortest to longest. -/
def GetFirstUnexistingSubpath (fs : FileSystem) (p : Path) :
    Except Err (Option Path) :=
  firstUnexisting fs (properPrefixes p)

namespace RevertableFsOperations

/-- MkdirAll from file_system.go: find the shallowest missing prefix;
when the whole path exists do nothing and record nothing; otherwise
create the chain and record one inverse that removes that shallowest
newly created prefix. -/
def MkdirAll (env : Env) (r : RevertableFsOperations) (fs : FileSystem)
    (p : Path) : Except Err Unit × RevertableFsOperations × FileSystem :=
  match GetFirstUnexistingSubpath fs p with
  | .error e => (.error (.wrapped e), r, fs)
  | .ok none => (.ok (), r, fs)
  | .ok (some undoPath) =>
    match osMkdirAll fs p with
    | .error e => (.error e, r, fs)
    | .ok fs1 =>
      (.ok (),
       { r with undoOperations := r.undoOperations ++ [.removeAllOf undoPath] },
       fs1)

end RevertableFsOperations

/-- Directory names of p, sorted, as postorderWalkDir reads them
(Readdirnames followed by sort.Strings). -/
def sortedChildNames (fs : FileSystem) (p : Path) : List String :=
  insertionSort strLe (childNamesRaw fs p)

/-- The length of the longest entry path of the store, a bound on the
nesting depth for the fuelled walk recursion. -/
def maxEntryLen (fs : FileSystem) : Nat :=
  ((fs.dirs ++ fs.files.map Prod.fst).map List.length).foldr max 0

/-- The fuelled recursion of postorderWalkDir: for each sorted child,
first the recursive walk of the child, then the child itself.  Fuel is
only a termination device; with fuel exceeding the remaining depth the
value is the true walk (opening a file instead of a directory yields no
child names, matching the ignored Readdirnames error in the Go code). -/
def postWalkAux (fs : FileSystem) : Nat → Path → List Path
  | 0, _ => []
  | fuel + 1, p =>
    (sortedChildNames fs p).flatMap fun n =>
      postWalkAux fs fuel (p ++ [n]) ++ [p ++ [n]]

/-- PostorderWalkDir from file_system.go, as the sequence of paths the
walk function is invoked on: a missing or non-directory root is passed
to the function directly; for a directory root the recursion visits
every proper descendant, never the root itself. -/
def PostorderWalkDir (fs : FileSystem) (root : Path) : List Path :=
  match osStat fs root with
  | none => [root]
  | some .fileKind => [root]
  | some .dirKind => postWalkAux fs (maxEntryLen fs + 1 - root.length) root

/-- Fold a transaction-mutating step over a list of paths, stopping at
the first error (the walk callback protocol of the Go code). -/
def txFold (f : RevertableFsOperations → FileSystem → Path →
      Except Err Unit × RevertableFsOperations × FileSystem) :
    List Path → RevertableFsOperations → FileSystem →
      Except Err Unit × RevertableFsOperations × FileSystem
  | [], r, fs => (.ok (), r, fs)
  | p :: rest, r, fs =>
    match f r fs p with
    | (.ok _, r1, fs1) => txFold f rest r1 fs1
    | (.error e, r1, fs1) => (.error e, r1, fs1)

namespace RevertableFsOperations

/-- The walk phase of MoveoOrCopyDir: the postorder walk of the source,
moving every file and re-creating (then removing at the source) every
directory.  The walk list and the directory test are taken from the
filesystem at entry: the postorder discipline mutates only entries that
have already been visited, so the interleaved reads of the Go code see
exactly this snapshot. -/
def moveOrCopyDirWalk (env : Env) (r : RevertableFsOperations)
    (fs : FileSystem) (src tgt : Path) :
    Except Err Unit × RevertableFsOperations × FileSystem :=
  txFold
    (fun r1 fs1 p =>
      let tgtP := tgt ++ p.drop src.length
      if fs.isDir p then
        match MkdirAll env r1 fs1 tgtP with
        | (.error e, r2, fs2) => (.error (.wrapped e), r2, fs2)
        | (.ok _, r2, fs2) =>
          match osRemove fs2 p with
          | .error e => (.error (.wrapped e), r2, fs2)
          | .ok fs3 => (.ok (), r2, fs3)
      else
        match MoveOrCopy env r1 fs1 p tgtP with
        | (.error e, r2, fs2) => (.error (.wrapped e), r2, fs2)
        | (.ok _, r2, fs2) => (.ok (), r2, fs2))
    (PostorderWalkDir fs src) r fs

/-- MoveoOrCopyDir from file_system.go (the Go name carries the typo):
the target must not exist or be an empty directory, else a conflict
error before any mutation; then the walk phase. -/
def MoveoOrCopyDir (env : Env) (r : RevertableFsOperations)
    (fs : FileSystem) (src tgt : Path) :
    Except Err Unit × RevertableFsOperations × FileSystem :=
  match osStat fs tgt with
  | none => moveOrCopyDirWalk env r fs src tgt
  | some .fileKind => (.error (.emptyOrNewDir tgt), r, fs)
  | some .dirKind =>
    match IsDirEmpty fs tgt with
    | .error e => (.error (.wrapped e), r, fs)
    | .ok true => moveOrCopyDirWalk env r fs src tgt
    | .ok false => (.error (.emptyOrNewDir tgt), r, fs)

/-- DeleteDir from file_system.go: a plain file is just deleted; a
directory is walked postorder, each entry deleted into the backup area,
and finally the root itself is deleted. -/
def DeleteDir (env : Env) (r : RevertableFsOperations) (fs : FileSystem)
    (p : Path) : Except Err Unit × RevertableFsOperations × FileSystem :=
  match osStat fs p with
  | some .fileKind =>
    match Delete env r fs p with
    | (.error e, r1, fs1) => (.error (.wrapped e), r1, fs1)
    | (.ok _, r1, fs1) => (.ok (), r1, fs1)
  | _ =>
    match txFold
        (fun r1 fs1 q =>
          match Delete env r1 fs1 q with
          | (.error e, r2, fs2) => (.error (.wrapped e), r2, fs2)
          | (.ok _, r2, fs2) => (.ok (), r2, fs2))
        (PostorderWalkDir fs p) r fs with
    | (.error e, r1, fs1) => (.error e, r1, fs1)
    | (.ok _, r1, fs1) =>
      match osStat fs1 p with
      | none => (.error (.statAny p), r1, fs1)
      | some _ =>
        match Delete env r1 fs1 p with
        | (.error e, r2, fs2) => (.error (.wrapped e), r2, fs2)
        | (.ok _, r2, fs2) => (.ok (), r2, fs2)

end RevertableFsOperations

/-- The file paths under root (excluding root itself), made relative to
root and listed in the order filepath.WalkDir delivers them (children in
sorted name order, hence pathLt order on the relative file paths, no
file being a prefix of another in a well-formed store).  This is
listFiles of export.go and the file enumeration of checkDeletionSafety. -/
def filesUnder (fs : FileSystem) (root : Path) : List Path :=
  insertionSort pathLe
    (((fs.files.map Prod.fst).filter fun q =>
      root.isPrefixOf q && decide (q ≠ root)).map fun q =>
        q.drop root.length)

/-- The slash-joined relative path, as the character list of the string
filepath.Rel hands the walk callback.  Go compares these strings
byte-wise; on UTF-8 the code-point order used here agrees with the byte
order. -/
def joinChars : Path → List Char
  | [] => []
  | [c] => c.data
  | c :: rest => c.data ++ '/' :: joinChars rest

/-- listFiles of export.go: the relative path strings of the files
under path, in the order the walk delivers them. -/
def listFiles (fs : FileSystem) (path : Path) : List (List Char) :=
  (filesUnder fs path).map joinChars

/-- The linear merge of checkDeletionSafety: for each present file
string (in walk order) advance the shared index through the removable
list; a string equal to the current entry is accepted, one byte-wise
below the current entry, or arriving after the list is exhausted, fails
the check naming that relative string. -/
def mergeCheck : List (List Char) → List (List Char) → Except Err Unit
  | [], _ => .ok ()
  | s :: _, [] => .error (.notRegolithFile s)
  | s :: rest, c :: rs =>
    if s = c then mergeCheck rest rs
    else if lexLt charLt s c then .error (.notRegolithFile s)
    else mergeCheck (s :: rest) rs
termination_by structural _ rem => rem

/-- checkDeletionSafety from export.go: a missing destination passes, a
non-directory destination fails, a directory is walked and its files'
relative path strings are merged against the removable list. -/
def checkDeletionSafety (fs : FileSystem) (path : Path)
    (removableFiles : List (List Char)) : Except Err Unit :=
  match osStat fs path with
  | none => .ok ()
  | some .fileKind => .error (.notADir path)
  | some .dirKind => mergeCheck (listFiles fs path) removableFiles

/-- The EditedFiles manifest of export.go: per destination path, the
relative file paths the tool wrote there, for each of the two output
kinds. -/
structure EditedFiles where
  rp : List (Path × List (List Char))
  bp : List (Path × List (List Char))
deriving DecidableEq, Repr

/-- An empty manifest (NewEditedFiles of the manifest file of
export.go). -/
def emptyEditedFiles : EditedFiles := ⟨[], []⟩

/-- CheckDeletionSafety (the EditedFiles method) from export.go: check
the resource-pack destination, then the behavior-pack destination,
using an empty list for an unknown destination. -/
def EditedFiles.CheckDeletionSafety (f : EditedFiles) (fs : FileSystem)
    (rpPath bpPath : Path) : Except Err Unit :=
  match checkDeletionSafety fs rpPath ((f.rp.lookup rpPath).getD []) with
  | .error e => .error (.wrapped e)
  | .ok _ =>
    match checkDeletionSafety fs bpPath ((f.bp.lookup bpPath).getD []) with
    | .error e => .error (.wrapped e)
    | .ok _ => .ok ()

/-- An installed world as seen by the platform lookup collaborator
(ListWorlds): its display name and its directory. -/
structure World where
  name : String
  path : Path
deriving DecidableEq, Repr

/-- The ExportTarget descriptor of export.go.  A Go empty-string path is
the empty component list; an absent world name is the empty string. -/
structure ExportTarget where
  target : String
  bpPath : Path
  rpPath : Path
  worldPath : Path
  worldName : String
  readOnly : Bool
deriving DecidableEq, Repr

/-- The world-matching loop of GetExportPaths: scan the installed
worlds and keep the destination paths derived from the last one whose
name matches; with no match the zero-value pair survives. -/
def worldScan (ws : List World) (worldName name : String) : Path × Path :=
  ws.foldl
    (fun acc w =>
      if w.name = worldName then
        (w.path ++ ["behavior_packs", name ++ "_bp"],
         w.path ++ ["resource_packs", name ++ "_rp"])
      else acc)
    ([], [])

/-- GetExportPaths from export.go.  The results of the platform lookup
collaborators FindMojangDir and ListWorlds (which are outside the
studied sources) are passed in.  Note the world-name branch: the loop
keeps the zero-value paths and the nil error when no installed world
matches the requested name. -/
def GetExportPaths (mojangDir : Except Err Path)
    (worlds : Except Err (List World)) (exportTarget : ExportTarget)
    (name : String) : Path × Path × Option Err :=
  if exportTarget.target = "development" then
    match mojangDir with
    | .error e => ([], [], some (.wrapped e))
    | .ok comMojang =>
      (comMojang ++ ["development_behavior_packs", name ++ "_bp"],
       comMojang ++ ["development_resource_packs", name ++ "_rp"], none)
  else if exportTarget.target = "exact" then
    (exportTarget.bpPath, exportTarget.rpPath, none)
  else if exportTarget.target = "world" then
    if exportTarget.worldPath ≠ [] then
      if exportTarget.worldName ≠ "" then
        ([], [], some .bothWorldNameAndPath)
      else
        (exportTarget.worldPath ++ ["behavior_packs", name ++ "_bp"],
         exportTarget.worldPath ++ ["resource_packs", name ++ "_rp"], none)
    else if exportTarget.worldName ≠ "" then
      match mojangDir with
      | .error e => ([], [], some (.wrapped e))
      | .ok _ =>
        match worlds with
        | .error e => ([], [], some (.wrapped e))
        | .ok ws =>
          let pair := worldScan ws exportTarget.worldName name
          (pair.1, pair.2, none)
    else ([], [], some .worldTargetNeedsNameOrPath)
  else if exportTarget.target = "local" then
    (["build", "BP"], ["build", "RP"], none)
  else ([], [], some (.invalidExportTarget exportTarget.target))

/-- Model of the third-party copy.Copy library call used by the
MoveOrCopy of export.go: a missing source fails without mutating
anything; a source file is copied to the destination (parents created);
a source directory is replicated recursively at the destination. -/
def copyCopy (fs : FileSystem) (src tgt : Path) :
    Except Err Unit × FileSystem :=
  if fs.isFile src then CopyFile fs src tgt
  else if fs.isDir src then
    match osMkdirAll fs tgt with
    | .error e => (.error e, fs)
    | .ok fs1 =>
      let newDirs := (fs.dirs.filter fun d =>
        src.isPrefixOf d && decide (d ≠ src)).map (rebase src tgt)
      let newFiles := (fs.files.filter fun f => src.isPrefixOf f.1).map
        fun f => (rebase src tgt f.1, f.2)
      let fs2 := ⟨fs1.dirs ++ newDirs.filter (fun d => !(fs1.isDir d)),
                  fs1.files⟩
      (.ok (), newFiles.foldl (fun acc f => setFile acc f.1 f.2) fs2)
  else (.error (.statNotExist src), fs)

/-- MoveOrCopy from export.go (the orchestrator-level helper, distinct
from the transactional one): os.Rename, falling back to copy.Copy when
the rename fails.  The read-only chmod walk only changes permission
bits, which are outside the model. -/
def MoveOrCopyE (env : Env) (fs : FileSystem) (src dst : Path)
    (makeReadOnly : Bool) : Except Err Unit × FileSystem :=
  match osRename env fs src dst with
  | .ok fs1 => (.ok (), fs1)
  | .error _ =>
    match copyCopy fs src dst with
    | (.error e, fs1) => (.error (.wrapped e), fs1)
    | (.ok _, fs1) => (.ok (), fs1)

/-- The manifest rebuilt from the fresh destinations (the
NewEditedFiles(rpPath, bpPath) call of ExportProject). -/
def newEditedFilesFromPaths (fs : FileSystem) (rpPath bpPath : Path) :
    EditedFiles :=
  ⟨[(rpPath, listFiles fs rpPath)], [(bpPath, listFiles fs bpPath)]⟩

/-- Serialization of the manifest for Dump (the structured-text bytes
written to the manifest file). -/
def encodeEditedFiles (f : EditedFiles) : Bytes :=
  (toString (repr f)).toUTF8.toList.map fun b => b.toNat

/-- Dump from export.go: create the parent of the manifest path and
write the serialized manifest there. -/
def EditedFiles.Dump (f : EditedFiles) (fs : FileSystem) :
    Except Err Unit × FileSystem :=
  match osMkdirAll fs ["cache"] with
  | .error e => (.error (.wrapped e), fs)
  | .ok fs1 =>
    if fs1.isDir ["cache", "edited_files.json"] then
      (.error (.createFailed ["cache", "edited_files.json"]), fs1)
    else
      (.ok (), setFile fs1 ["cache", "edited_files.json"]
        (encodeEditedFiles f))

/-- The store after ExportProject has cleared both destinations and the
data path: the state right before the relocation phase. -/
def clearedState (fs : FileSystem) (dataPath bpPath rpPath : Path) :
    FileSystem :=
  osRemoveAll (osRemoveAll (osRemoveAll fs bpPath) rpPath) dataPath

/-- The Profile fields ExportProject reads. -/
structure Profile where
  exportTarget : ExportTarget
  dataPath : Path
deriving DecidableEq, Repr

/-- ExportProject from export.go: resolve the destinations, run the
deletion-safety check, clear the destinations and the data path with
os.RemoveAll, relocate the built output with MoveOrCopy, then rebuild
and dump the manifest.  Every failure is returned as-is; no performed
mutation is ever rolled back (there is no transaction in this
function). -/
def ExportProject (env : Env) (mojangDir : Except Err Path)
    (worlds : Except Err (List World)) (editedFiles : EditedFiles)
    (fs : FileSystem) (profile : Profile) (name : String) :
    Except Err Unit × FileSystem :=
  match GetExportPaths mojangDir worlds profile.exportTarget name with
  | (_, _, some e) => (.error e, fs)
  | (bpPath, rpPath, none) =>
    match editedFiles.CheckDeletionSafety fs rpPath bpPath with
    | .error e => (.error (.wrapped e), fs)
    | .ok _ =>
      let fs1 := osRemoveAll fs bpPath
      let fs2 := osRemoveAll fs1 rpPath
      let fs3 := osRemoveAll fs2 profile.dataPath
      match MoveOrCopyE env fs3 [".regolith", "tmp", "BP"] bpPath
          profile.exportTarget.readOnly with
      | (.error e, fs4) => (.error e, fs4)
      | (.ok _, fs4) =>
        match MoveOrCopyE env fs4 [".regolith", "tmp", "RP"] rpPath
            profile.exportTarget.readOnly with
        | (.error e, fs5) => (.error e, fs5)
        | (.ok _, fs5) =>
          match MoveOrCopyE env fs5 [".regolith", "tmp", "data"]
              profile.dataPath false with
          | (.error e, fs6) => (.error e, fs6)
          | (.ok _, fs6) =>
            let newManifest := newEditedFilesFromPaths fs6 rpPath bpPath
            match newManifest.Dump fs6 with
            | (.error e, fs7) => (.error e, fs7)
            | (.ok _, fs7) => (.ok (), fs7)

/-! Concrete stores, transactions and runs used to evaluate the code at
specific inputs. -/

/-- A store with two files of the same base name in different
directories, plus an empty backup directory. -/
def c1Fs : FileSystem :=
  ⟨[[], ["bak"], ["a"], ["b"]], [(["a", "x"], [1]), (["b", "x"], [2])]⟩

/-- A fresh transaction over the backup directory of c1Fs. -/
def c1Tx : RevertableFsOperations := ⟨[], ["bak"], 0⟩

/-- First delete: the file a/x. -/
def c1Step1 := RevertableFsOperations.Delete noFailEnv c1Tx c1Fs ["a", "x"]

/-- Second delete: the file b/x, whose base name collides with a/x. -/
def c1Step2 :=
  RevertableFsOperations.Delete noFailEnv c1Step1.2.1 c1Step1.2.2 ["b", "x"]

/-- The undo of the two deletes. -/
def c1UndoRun :=
  RevertableFsOperations.Undo noFailEnv c1Step2.2.1 c1Step2.2.2

/-- A store with two empty destination directories and a data directory,
and no built output under .regolith/tmp. -/
def c2Fs : FileSystem :=
  ⟨[[], ["out"], ["out", "bp"], ["out", "rp"], ["data"]], []⟩

/-- An exact export target pointing at the destinations of c2Fs. -/
def c2Target : ExportTarget :=
  ⟨"exact", ["out", "bp"], ["out", "rp"], [], "", false⟩

/-- The profile for the c2 run. -/
def c2Profile : Profile := ⟨c2Target, ["data"]⟩

/-- An export run over c2Fs: the safety check passes, the destinations
are cleared, then relocating the (missing) built output fails. -/
def c2Run : Except Err Unit × FileSystem :=
  ExportProject noFailEnv (.ok []) (.ok []) emptyEditedFiles c2Fs c2Profile
    "proj"

/-- A world export target naming a world that is not installed. -/
def c5Target : ExportTarget := ⟨"world", [], [], [], "w", false⟩

/-- The destination tree a previous export left behind: the directory
app holding the file x, next to the file app-config. -/
def c4PrevFs : FileSystem :=
  ⟨[[], ["dst"], ["dst", "app"]],
   [(["dst", "app", "x"], [1]), (["dst", "app-config"], [2])]⟩

/-- The removable list the code records for that tree: listFiles yields
app/x before app-config, in walk order. -/
def c4Removable : List (List Char) := listFiles c4PrevFs ["dst"]

/-- The destination as found at the next export: only app-config is
still present. -/
def c4Fs : FileSystem :=
  ⟨[[], ["dst"]], [(["dst", "app-config"], [2])]⟩

/-- The relative path string of the one present file. -/
def c4AppConfig : List Char := joinChars ["app-config"]

end Regolith

namespace Regolith

/-! Basic facts about the element and path orders. -/

theorem lexLt_irrefl {α : Type} [DecidableEq α] (lt : α → α → Bool)
    (hirr : ∀ a, lt a a = false) : ∀ p, lexLt lt p p = false := by
  intro p
  induction p with
  | nil => rfl
  | cons a as ih => simp [lexLt, hirr a, ih]

theorem lexLt_trans {α : Type} [DecidableEq α] (lt : α → α → Bool)
    (htr : ∀ a b c, lt a b = true → lt b c = true → lt a c = true) :
    ∀ p q r, lexLt lt p q = true → lexLt lt q r = true →
      lexLt lt p r = true := by
  intro p
  induction p with
  | nil =>
    intro q r h1 h2
    cases q with
    | nil => simp [lexLt] at h1
    | cons b bs =>
      cases r with
      | nil => simp [lexLt] at h2
      | cons c cs => rfl
  | cons a as ih =>
    intro q r h1 h2
    cases q with
    | nil => simp [lexLt] at h1
    | cons b bs =>
      cases r with
      | nil => simp [lexLt] at h2
      | cons c cs =>
        simp only [lexLt] at h1 h2 ⊢
        split at h1
        · rename_i hab
          split at h2
          · rename_i hbc
            simp [htr a b c hab hbc]
          · split at h2
            · rename_i hbc
              simp [hbc ▸ hab]
            · exact absurd h2 (by simp)
        · split at h1
          · rename_i hab
            split at h2
            · rename_i hbc
              simp [hab ▸ hbc]
            · split at h2
              · rename_i hbc
                simp only [hab.trans hbc, if_pos]
                split
                · rfl
                · simp [ih bs cs h1 h2]
              · exact absurd h2 (by simp)
          · exact absurd h1 (by simp)

theorem lexLt_connex {α : Type} [DecidableEq α] (lt : α → α → Bool)
    (hirr : ∀ a, lt a a = false)
    (htri : ∀ a b, a ≠ b → lt a b = false → lt b a = true) :
    ∀ p q, p ≠ q → lexLt lt p q = false → lexLt lt q p = true := by
  intro p
  induction p with
  | nil =>
    intro q hne h
    cases q with
    | nil => exact absurd rfl hne
    | cons b bs => simp [lexLt] at h
  | cons a as ih =>
    intro q hne h
    cases q with
    | nil => rfl
    | cons b bs =>
      simp only [lexLt] at h ⊢
      split at h
      · exact absurd h (by simp)
      · rename_i hab
        split at h
        · rename_i hab'
          subst hab'
          have hne' : as ≠ bs := fun hh => hne (by rw [hh])
          simp [hirr a, ih bs hne' h]
        · rename_i hab'
          have hab'' : lt a b = false := by
            cases hh : lt a b
            · rfl
            · exact absurd hh hab
          simp [htri a b hab' hab'']

theorem charLt_irrefl (a : Char) : charLt a a = false := by
  simp [charLt]

theorem charLt_trans : ∀ a b c : Char, charLt a b = true →
    charLt b c = true → charLt a c = true := by
  intro a b c h1 h2
  simp only [charLt, decide_eq_true_eq] at h1 h2 ⊢
  exact h1.trans h2

theorem charLt_connex : ∀ a b : Char, a ≠ b → charLt a b = false →
    charLt b a = true := by
  intro a b hne h
  simp only [charLt, decide_eq_false_iff_not] at h
  simp only [charLt, decide_eq_true_eq]
  rcases lt_trichotomy a b with h3 | h3 | h3
  · exact absurd h3 h
  · exact absurd h3 hne
  · exact h3

theorem strLt_irrefl (a : String) : strLt a a = false :=
  lexLt_irrefl charLt charLt_irrefl a.data

theorem strLt_trans : ∀ a b c : String, strLt a b = true →
    strLt b c = true → strLt a c = true :=
  fun a b c h1 h2 =>
    lexLt_trans charLt charLt_trans a.data b.data c.data h1 h2

theorem strLt_connex : ∀ a b : String, a ≠ b → strLt a b = false →
    strLt b a = true :=
  fun a b hne h =>
    lexLt_connex charLt charLt_irrefl charLt_connex a.data b.data
      (fun hd => hne (String.ext hd)) h

theorem pathLt_irrefl (p : Path) : pathLt p p = false :=
  lexLt_irrefl strLt strLt_irrefl p

theorem pathLt_trans {p q r : Path} (h1 : pathLt p q = true)
    (h2 : pathLt q r = true) : pathLt p r = true :=
  lexLt_trans strLt strLt_trans p q r h1 h2

theorem pathLt_connex {p q : Path} (hne : p ≠ q)
    (h : pathLt p q = false) : pathLt q p = true :=
  lexLt_connex strLt strLt_irrefl strLt_connex p q hne h

theorem strLt_ne {a b : String} (h : strLt a b = true) : a ≠ b := by
  intro he
  subst he
  rw [strLt_irrefl] at h
  exact absurd h (by simp)

theorem strLe_of_strLt {a b : String} (h : strLt a b = true) :
    strLe a b = true := by simp [strLe, h]

theorem strLt_of_strLe_ne {a b : String} (h : strLe a b = true)
    (hne : a ≠ b) : strLt a b = true := by
  simp only [strLe, Bool.or_eq_true, decide_eq_true_eq] at h
  exact h.resolve_right hne

theorem strLe_trans : ∀ a b c : String, strLe a b = true →
    strLe b c = true → strLe a c = true := by
  intro a b c h1 h2
  simp only [strLe, Bool.or_eq_true, decide_eq_true_eq] at h1 h2 ⊢
  rcases h1 with h1 | h1
  · rcases h2 with h2 | h2
    · exact Or.inl (strLt_trans a b c h1 h2)
    · exact Or.inl (h2 ▸ h1)
  · exact h1 ▸ h2

theorem strLe_total_bool : ∀ a b : String, strLe a b = false →
    strLe b a = true := by
  intro a b h
  by_cases he : a = b
  · subst he
    simp [strLe] at h
  · by_cases hlt : strLt a b = true
    · rw [strLe_of_strLt hlt] at h
      exact absurd h (by simp)
    · have hlt' : strLt a b = false := by
        cases hh : strLt a b
        · rfl
        · exact absurd hh hlt
      exact strLe_of_strLt (strLt_connex a b he hlt')

theorem pathLt_asymm {p q : Path} (h : pathLt p q = true) :
    pathLt q p = false := by
  cases hqp : pathLt q p
  · rfl
  · have := pathLt_trans h hqp
    simp [pathLt_irrefl] at this

theorem pathLt_ne {p q : Path} (h : pathLt p q = true) : p ≠ q := by
  intro he
  subst he
  simp [pathLt_irrefl] at h

theorem pathLe_of_pathLt {p q : Path} (h : pathLt p q = true) :
    pathLe p q = true := by simp [pathLe, h]

theorem pathLt_of_pathLe_ne {p q : Path} (h : pathLe p q = true)
    (hne : p ≠ q) : pathLt p q = true := by
  simp only [pathLe, Bool.or_eq_true, decide_eq_true_eq] at h
  exact h.resolve_right hne

theorem pathLe_trans {p q r : Path} (h1 : pathLe p q = true)
    (h2 : pathLe q r = true) : pathLe p r = true := by
  simp only [pathLe, Bool.or_eq_true, decide_eq_true_eq] at h1 h2 ⊢
  rcases h1 with h1 | h1
  · rcases h2 with h2 | h2
    · exact Or.inl (pathLt_trans h1 h2)
    · exact Or.inl (h2 ▸ h1)
  · exact h1 ▸ h2

theorem pathLe_total (p q : Path) :
    pathLe p q = true ∨ pathLe q p = true := by
  by_cases he : p = q
  · exact Or.inl (by simp [pathLe, he])
  · by_cases hlt : pathLt p q = true
    · exact Or.inl (pathLe_of_pathLt hlt)
    · refine Or.inr (pathLe_of_pathLt (pathLt_connex he ?_))
      cases hpq : pathLt p q
      · rfl
      · exact absurd hpq hlt

/-! Claim theorems: the undo invariant and the backup counter. -/

/-- C1: the claim states that after any sequence of successful
Move/Copy/Delete/MkdirAll operations, Undo restores the pre-transaction
snapshot exactly.  The code violates this: two successful Delete calls
on paths that share a base name reuse the same backup slot (the
backup-file counter is never incremented), the second backup silently
replaces the first, and the subsequent Undo both fails and leaves the
tree different from the snapshot (the first deleted file is lost).
This theorem evaluates the code on that failing input. -/
theorem c1_undo_fails_on_colliding_backup_slots :
    c1Step1.1 = .ok () ∧ c1Step2.1 = .ok () ∧
      c1UndoRun.1 ≠ .ok () ∧ c1UndoRun.2.2 ≠ c1Fs := by decide

/-- C3: the claim states that the backup-file counter increases with
each backup so that slot names stay unique.  The code never increments
backupFileCounter: after a successful backed-up Delete the counter is
unchanged and the slot generated for a second path with the same base
name is identical to the slot just used. -/
theorem c3_backup_counter_never_increments :
    c1Step1.1 = .ok () ∧
      c1Step1.2.1.backupFileCounter = c1Tx.backupFileCounter ∧
      RevertableFsOperations.getTempFilePath c1Step1.2.1 ["b", "x"] =
        RevertableFsOperations.getTempFilePath c1Tx ["a", "x"] := by decide

/-- C8: Delete on a path that does not exist succeeds, records no
inverse action, and leaves both the transaction and the store
untouched. -/
theorem c8_delete_missing_path_is_noop (env : Env)
    (r : RevertableFsOperations) (fs : FileSystem) (p : Path)
    (h : fs.entryExists p = false) :
    RevertableFsOperations.Delete env r fs p = (.ok (), r, fs) := by
  have h' := h
  simp only [FileSystem.entryExists, Bool.or_eq_false_iff] at h'
  simp [RevertableFsOperations.Delete, osStat, h'.1, h'.2]

/-- Witness for c8_delete_missing_path_is_noop. -/
theorem c8_delete_missing_path_is_noop_witness :
    RevertableFsOperations.Delete noFailEnv
        (⟨[], ["bk"], 0⟩ : RevertableFsOperations)
        (⟨[[], ["bk"]], []⟩ : FileSystem) ["zz"] =
      (.ok (), (⟨[], ["bk"], 0⟩ : RevertableFsOperations),
        (⟨[[], ["bk"]], []⟩ : FileSystem)) :=
  c8_delete_missing_path_is_noop noFailEnv _ _ _ (by decide)

/-- C7: MoveoOrCopyDir fails with the conflict error, mutating nothing,
exactly when the target exists as a non-directory or as a non-empty
directory; when the target is missing or an empty directory it proceeds
to the walk phase. -/
theorem c7_move_or_copy_dir_target_conflict (env : Env)
    (r : RevertableFsOperations) (fs : FileSystem) (src tgt : Path) :
    (fs.entryExists tgt = true → fs.isDir tgt = false →
      RevertableFsOperations.MoveoOrCopyDir env r fs src tgt =
        (.error (.emptyOrNewDir tgt), r, fs)) ∧
    (fs.isDir tgt = true → childNamesRaw fs tgt ≠ [] →
      RevertableFsOperations.MoveoOrCopyDir env r fs src tgt =
        (.error (.emptyOrNewDir tgt), r, fs)) ∧
    ((fs.entryExists tgt = false ∨
        (fs.isDir tgt = true ∧ childNamesRaw fs tgt = [])) →
      RevertableFsOperations.MoveoOrCopyDir env r fs src tgt =
        RevertableFsOperations.moveOrCopyDirWalk env r fs src tgt) := by
  refine ⟨?_, ?_, ?_⟩
  · intro hex hdir
    have hfile : fs.isFile tgt = true := by
      simp only [FileSystem.entryExists, hdir, Bool.false_or] at hex
      exact hex
    simp [RevertableFsOperations.MoveoOrCopyDir, osStat, hdir, hfile]
  · intro hdir hne
    have hemp : (childNamesRaw fs tgt).isEmpty = false := by
      simp [List.isEmpty_iff, hne]
    simp [RevertableFsOperations.MoveoOrCopyDir, osStat, hdir, IsDirEmpty,
      FileSystem.entryExists, hemp]
  · intro hcase
    rcases hcase with hmiss | ⟨hdir, hemp⟩
    · have h' := hmiss
      simp only [FileSystem.entryExists, Bool.or_eq_false_iff] at h'
      simp [RevertableFsOperations.MoveoOrCopyDir, osStat, h'.1, h'.2]
    · have hemp' : (childNamesRaw fs tgt).isEmpty = true := by
        simp [hemp]
      simp [RevertableFsOperations.MoveoOrCopyDir, osStat, hdir, IsDirEmpty,
        FileSystem.entryExists, hemp']

/-- Witness for c7_move_or_copy_dir_target_conflict: a target that is a
non-empty directory is rejected with the conflict error and no
mutation. -/
theorem c7_move_or_copy_dir_target_conflict_witness :
    RevertableFsOperations.MoveoOrCopyDir noFailEnv
        (⟨[], ["bk"], 0⟩ : RevertableFsOperations)
        (⟨[[], ["s"], ["t"]], [(["t", "f"], [1])]⟩ : FileSystem)
        ["s"] ["t"] =
      (.error (.emptyOrNewDir ["t"]),
        (⟨[], ["bk"], 0⟩ : RevertableFsOperations),
        (⟨[[], ["s"], ["t"]], [(["t", "f"], [1])]⟩ : FileSystem)) :=
  (c7_move_or_copy_dir_target_conflict noFailEnv _ _ ["s"] ["t"]).2.1
    (by decide) (by decide)

/-! Membership bridges for the store predicates. -/

theorem FileSystem.isDir_iff_mem (fs : FileSystem) (p : Path) :
    fs.isDir p = true ↔ p ∈ fs.dirs := by
  simp [FileSystem.isDir, List.contains_iff_exists_mem_beq]

theorem lookup_isSome_iff (l : List (Path × Bytes)) (p : Path) :
    (l.lookup p).isSome = true ↔ p ∈ l.map Prod.fst := by
  induction l with
  | nil => simp [List.lookup]
  | cons f rest ih =>
    obtain ⟨k, v⟩ := f
    by_cases h : p = k
    · subst h
      simp [List.lookup]
    · have hb : (p == k) = false := beq_eq_false_iff_ne.mpr h
      simp [List.lookup, hb, ih, h]

theorem FileSystem.isFile_iff_mem (fs : FileSystem) (p : Path) :
    fs.isFile p = true ↔ p ∈ fs.files.map Prod.fst := by
  simp [FileSystem.isFile, FileSystem.getFile, lookup_isSome_iff]

theorem FileSystem.entryExists_iff (fs : FileSystem) (p : Path) :
    fs.entryExists p = true ↔
      (p ∈ fs.dirs ∨ p ∈ fs.files.map Prod.fst) := by
  simp [FileSystem.entryExists, Bool.or_eq_true, FileSystem.isDir_iff_mem,
    FileSystem.isFile_iff_mem]

theorem FileSystem.getFile_isSome_of_isFile {fs : FileSystem} {p : Path}
    (h : fs.isFile p = true) : ∃ c, fs.getFile p = some c := by
  simp only [FileSystem.isFile, Option.isSome_iff_exists] at h
  exact h

/-! Effects of osRemoveAll and osMkdirAll on entry existence. -/

theorem osRemoveAll_entryExists_of_ancestor (fs : FileSystem) {p q : Path}
    (h : p <+: q) : (osRemoveAll fs p).entryExists q = false := by
  rw [← Bool.not_eq_true, FileSystem.entryExists_iff]
  rintro (hd | hf)
  · have hm := List.mem_filter.mp hd
    have hpre : p.isPrefixOf q = true := List.isPrefixOf_iff_prefix.mpr h
    simp [hpre] at hm
  · obtain ⟨f, hfmem, hfq⟩ := List.mem_map.mp hf
    have hm := List.mem_filter.mp hfmem
    have hpre : p.isPrefixOf f.1 = true :=
      List.isPrefixOf_iff_prefix.mpr (hfq ▸ h)
    simp [hpre] at hm

theorem osRemoveAll_entryExists_mono {fs : FileSystem} {p q : Path}
    (h : (osRemoveAll fs p).entryExists q = true) :
    fs.entryExists q = true := by
  rw [FileSystem.entryExists_iff] at h ⊢
  rcases h with hd | hf
  · exact Or.inl (List.mem_filter.mp hd).1
  · obtain ⟨f, hfmem, hfq⟩ := List.mem_map.mp hf
    exact Or.inr (List.mem_map.mpr ⟨f, (List.mem_filter.mp hfmem).1, hfq⟩)

theorem osMkdirAll_ok_files {fs : FileSystem} {p : Path} {fs1 : FileSystem}
    (h : osMkdirAll fs p = .ok fs1) : fs1.files = fs.files := by
  unfold osMkdirAll at h
  split at h
  · exact absurd h (by simp)
  · cases h
    rfl

theorem osMkdirAll_ok_dirs {fs : FileSystem} {p : Path} {fs1 : FileSystem}
    (h : osMkdirAll fs p = .ok fs1) :
    fs1.dirs = fs.dirs ++ (properPrefixes p).filter fun q => !(fs.isDir q) := by
  unfold osMkdirAll at h
  split at h
  · exact absurd h (by simp)
  · cases h
    rfl

theorem osMkdirAll_ok_no_file_prefix {fs : FileSystem} {p : Path}
    {fs1 : FileSystem} (h : osMkdirAll fs p = .ok fs1) :
    ∀ q ∈ properPrefixes p, fs.isFile q = false := by
  unfold osMkdirAll at h
  split at h
  · exact absurd h (by simp)
  · rename_i hany
    intro q hq
    rw [← Bool.not_eq_true]
    exact (List.any_eq_false.mp (by simpa using hany)) q hq

theorem properPrefixes_mem {p q : Path} (h : q ∈ properPrefixes p) :
    q.length ≤ p.length ∧ 1 ≤ q.length ∧ q <+: p := by
  simp only [properPrefixes, List.mem_map, List.mem_range] at h
  obtain ⟨i, hi, rfl⟩ := h
  refine ⟨?_, ?_, List.take_prefix _ _⟩
  · simp [List.length_take]
  · rw [List.length_take]
    omega

theorem osMkdirAll_ok_isFile {fs : FileSystem} {p : Path} {fs1 : FileSystem}
    (h : osMkdirAll fs p = .ok fs1) (q : Path) :
    fs1.isFile q = fs.isFile q := by
  simp [FileSystem.isFile, FileSystem.getFile, osMkdirAll_ok_files h]

theorem osMkdirAll_ok_isDir_long {fs : FileSystem} {p : Path}
    {fs1 : FileSystem} (h : osMkdirAll fs p = .ok fs1) {q : Path}
    (hq : p.length < q.length) : fs1.isDir q = fs.isDir q := by
  rw [Bool.eq_iff_iff, FileSystem.isDir_iff_mem, FileSystem.isDir_iff_mem,
    osMkdirAll_ok_dirs h, List.mem_append]
  constructor
  · rintro (hm | hm)
    · exact hm
    · have := (properPrefixes_mem (List.mem_filter.mp hm).1).1
      omega
  · exact Or.inl

theorem osMkdirAll_ok_isDir_of_file {fs : FileSystem} {p : Path}
    {fs1 : FileSystem} (h : osMkdirAll fs p = .ok fs1) {s : Path}
    (hs : fs.isFile s = true) : fs1.isDir s = fs.isDir s := by
  rw [Bool.eq_iff_iff, FileSystem.isDir_iff_mem, FileSystem.isDir_iff_mem,
    osMkdirAll_ok_dirs h, List.mem_append]
  constructor
  · rintro (hm | hm)
    · exact hm
    · have := osMkdirAll_ok_no_file_prefix h s (List.mem_filter.mp hm).1
      rw [hs] at this
      exact absurd this (by simp)
  · exact Or.inl

theorem osMkdirAll_parent_entryExists {fs : FileSystem} {dst : Path}
    {fs1 : FileSystem} (h : osMkdirAll fs dst.dropLast = .ok fs1) :
    fs1.entryExists dst = fs.entryExists dst := by
  cases hd : dst with
  | nil =>
    have hdirs := osMkdirAll_ok_dirs h
    simp only [hd, List.dropLast_nil, properPrefixes, List.length_nil,
      List.range_zero, List.map_nil, List.filter_nil,
      List.append_nil] at hdirs
    subst hd
    simp [FileSystem.entryExists, FileSystem.isDir, hdirs,
      osMkdirAll_ok_isFile h]
  | cons a as =>
    have hlen : dst.dropLast.length < dst.length := by
      rw [hd]
      simp [List.length_dropLast]
    subst hd
    simp [FileSystem.entryExists, osMkdirAll_ok_isDir_long h hlen,
      osMkdirAll_ok_isFile h]

/-! Failure analysis of the orchestrator-level MoveOrCopy. -/

theorem copyCopy_error_entryExists {fs : FileSystem} {src dst : Path}
    {e : Err} {fs1 : FileSystem}
    (h : copyCopy fs src dst = (.error e, fs1))
    (hdisj : ¬(fs.isFile src = true ∧ fs.isDir src = true)) :
    fs1.entryExists dst = fs.entryExists dst := by
  unfold copyCopy at h
  split at h
  · rename_i hfile
    have hdir : fs.isDir src = false := by
      cases hds : fs.isDir src
      · rfl
      · exact absurd ⟨hfile, hds⟩ hdisj
    unfold CopyFile at h
    split at h
    · cases h
      rfl
    · rename_i fsm heq
      have hdirm : fsm.isDir src = false := by
        rw [osMkdirAll_ok_isDir_of_file heq hfile, hdir]
      rw [if_neg (show ¬(fsm.isDir src = true) by simp [hdirm])] at h
      have hfm : fsm.isFile src = true := by
        rw [osMkdirAll_ok_isFile heq, hfile]
      obtain ⟨c, hc⟩ := FileSystem.getFile_isSome_of_isFile hfm
      rw [hc] at h
      split at h
      · cases h
        exact osMkdirAll_parent_entryExists heq
      · split at h
        · cases h
          exact osMkdirAll_parent_entryExists heq
        · injection h with h1 h2
          exact Except.noConfusion h1
  · split at h
    · split at h
      · cases h
        rfl
      · injection h with h1 h2
        exact Except.noConfusion h1
    · cases h
      rfl

theorem MoveOrCopyE_error_entryExists {env : Env} {fs : FileSystem}
    {src dst : Path} {ro : Bool} {e : Err} {fs1 : FileSystem}
    (h : MoveOrCopyE env fs src dst ro = (.error e, fs1))
    (hdisj : ¬(fs.isFile src = true ∧ fs.isDir src = true)) :
    fs1.entryExists dst = fs.entryExists dst := by
  unfold MoveOrCopyE at h
  cases hrn : osRename env fs src dst with
  | ok fsr =>
    rw [hrn] at h
    exact absurd h (by simp)
  | error e0 =>
    rw [hrn] at h
    cases hcc : copyCopy fs src dst with
    | mk r1 fsc =>
      rw [hcc] at h
      cases r1 with
      | error e1 =>
        cases h
        exact copyCopy_error_entryExists hcc hdisj
      | ok u =>
        exact absurd h (by simp)

/-! Claim theorems: failure handling of ExportProject. -/

/-- C2 counterexample: an export run over c2Fs passes the safety check,
clears the destination directory out/bp, then fails relocating the
(absent) built output — and returns the error with the destination
still removed, so the failed export did not leave the destinations as
they were. -/
theorem c2_failed_export_leaves_destination_cleared :
    c2Run.1 ≠ .ok () ∧ c2Fs.entryExists ["out", "bp"] = true ∧
      c2Run.2.entryExists ["out", "bp"] = false := by decide

/-- C2 amended: ExportProject performs no undo.  When the relocation of
the built behavior pack fails after the destinations were cleared, the
error is returned as-is and the already-performed clearing persists:
the behavior-pack destination is still absent in the resulting store. -/
theorem c2_amended_failed_export_returns_error_without_undo
    (env : Env) (md : Except Err Path) (ws : Except Err (List World))
    (ef : EditedFiles) (fs : FileSystem) (profile : Profile)
    (name : String) (bpPath rpPath : Path) (e : Err)
    (hpaths : GetExportPaths md ws profile.exportTarget name =
      (bpPath, rpPath, none))
    (hsafe : ef.CheckDeletionSafety fs rpPath bpPath = .ok ())
    (hdisj : ¬((clearedState fs profile.dataPath bpPath rpPath).isFile
          [".regolith", "tmp", "BP"] = true ∧
        (clearedState fs profile.dataPath bpPath rpPath).isDir
          [".regolith", "tmp", "BP"] = true))
    (hfail : (MoveOrCopyE env (clearedState fs profile.dataPath bpPath rpPath)
        [".regolith", "tmp", "BP"] bpPath profile.exportTarget.readOnly).1 =
      .error e) :
    (ExportProject env md ws ef fs profile name).1 = .error e ∧
    (ExportProject env md ws ef fs profile name).2.entryExists bpPath =
      false := by
  have hM : MoveOrCopyE env (clearedState fs profile.dataPath bpPath rpPath)
      [".regolith", "tmp", "BP"] bpPath profile.exportTarget.readOnly =
      (.error e,
        (MoveOrCopyE env (clearedState fs profile.dataPath bpPath rpPath)
          [".regolith", "tmp", "BP"] bpPath
          profile.exportTarget.readOnly).2) := by
    rw [← hfail, Prod.mk.eta]
  have hcleared :
      (clearedState fs profile.dataPath bpPath rpPath).entryExists bpPath =
        false := by
    unfold clearedState
    cases hq : (osRemoveAll (osRemoveAll (osRemoveAll fs bpPath) rpPath)
        profile.dataPath).entryExists bpPath
    · rfl
    · have h1 := osRemoveAll_entryExists_mono (osRemoveAll_entryExists_mono hq)
      rw [osRemoveAll_entryExists_of_ancestor fs (List.prefix_refl bpPath)] at h1
      exact absurd h1 (by simp)
  have hfinal := MoveOrCopyE_error_entryExists hM hdisj
  have hgoal : ExportProject env md ws ef fs profile name =
      (.error e,
        (MoveOrCopyE env (clearedState fs profile.dataPath bpPath rpPath)
          [".regolith", "tmp", "BP"] bpPath
          profile.exportTarget.readOnly).2) := by
    unfold ExportProject
    rw [hpaths]
    simp only [hsafe]
    have hcl : osRemoveAll (osRemoveAll (osRemoveAll fs bpPath) rpPath)
        profile.dataPath = clearedState fs profile.dataPath bpPath rpPath :=
      rfl
    rw [hcl, hM]
  rw [hgoal]
  exact ⟨rfl, hfinal ▸ hcleared⟩

/-- Witness for c2_amended_failed_export_returns_error_without_undo,
instantiated with the c2 run. -/
theorem c2_amended_witness :
    (ExportProject noFailEnv (.ok []) (.ok []) emptyEditedFiles c2Fs
        c2Profile "proj").1 =
      .error (.wrapped (.statNotExist [".regolith", "tmp", "BP"])) ∧
    (ExportProject noFailEnv (.ok []) (.ok []) emptyEditedFiles c2Fs
        c2Profile "proj").2.entryExists ["out", "bp"] = false :=
  c2_amended_failed_export_returns_error_without_undo noFailEnv (.ok [])
    (.ok []) emptyEditedFiles c2Fs c2Profile "proj" ["out", "bp"]
    ["out", "rp"] (.wrapped (.statNotExist [".regolith", "tmp", "BP"]))
    (by decide) (by decide) (by decide) (by decide)

/-! The world-name scan of GetExportPaths. -/

theorem worldScan_foldl_nomatch (ws : List World) (wn name : String)
    (acc : Path × Path) (h : ∀ w ∈ ws, w.name ≠ wn) :
    ws.foldl
      (fun acc w =>
        if w.name = wn then
          (w.path ++ ["behavior_packs", name ++ "_bp"],
           w.path ++ ["resource_packs", name ++ "_rp"])
        else acc)
      acc = acc := by
  induction ws generalizing acc with
  | nil => rfl
  | cons w rest ih =>
    rw [List.foldl_cons, if_neg (h w (by simp))]
    exact ih acc fun x hx => h x (by simp [hx])

theorem worldScan_nomatch (ws : List World) (wn name : String)
    (h : ∀ w ∈ ws, w.name ≠ wn) : worldScan ws wn name = ([], []) :=
  worldScan_foldl_nomatch ws wn name ([], []) h

theorem worldScan_foldl_match (ws : List World) (wn name : String)
    (acc : Path × Path) (hex : ∃ w ∈ ws, w.name = wn) :
    ∃ wl, wl ∈ ws ∧ wl.name = wn ∧
      ws.foldl
        (fun acc w =>
          if w.name = wn then
            (w.path ++ ["behavior_packs", name ++ "_bp"],
             w.path ++ ["resource_packs", name ++ "_rp"])
          else acc)
        acc =
        (wl.path ++ ["behavior_packs", name ++ "_bp"],
         wl.path ++ ["resource_packs", name ++ "_rp"]) := by
  induction ws generalizing acc with
  | nil =>
    obtain ⟨w, hw, _⟩ := hex
    exact absurd hw (by simp)
  | cons w rest ih =>
    by_cases hrest : ∃ x ∈ rest, x.name = wn
    · obtain ⟨wl, hmem, hname, heq⟩ := ih _ hrest
      exact ⟨wl, by simp [hmem], hname, by rw [List.foldl_cons, heq]⟩
    · have hw : w.name = wn := by
        obtain ⟨x, hx, hxn⟩ := hex
        rcases List.mem_cons.mp hx with rfl | hx'
        · exact hxn
        · exact absurd ⟨x, hx', hxn⟩ hrest
      refine ⟨w, by simp, hw, ?_⟩
      rw [List.foldl_cons, if_pos hw]
      exact worldScan_foldl_nomatch rest wn name _
        fun x hx hxn => hrest ⟨x, hx, hxn⟩

theorem worldScan_match (ws : List World) (wn name : String)
    (hex : ∃ w ∈ ws, w.name = wn) :
    ∃ wl, wl ∈ ws ∧ wl.name = wn ∧
      worldScan ws wn name =
        (wl.path ++ ["behavior_packs", name ++ "_bp"],
         wl.path ++ ["resource_packs", name ++ "_rp"]) :=
  worldScan_foldl_match ws wn name ([], []) hex

/-! Claim theorems: world export target resolution. -/

/-- C5 counterexample: with the world target naming the world w while
no world named w is installed, GetExportPaths returns empty paths and
no error, contradicting the claim that an unmatched world name fails
with a configuration error. -/
theorem c5_unmatched_world_name_yields_no_error :
    GetExportPaths (.ok ["mj"]) (.ok []) c5Target "p" = ([], [], none) := by
  decide

/-- C5 amended: for the world target, GetExportPaths fails with a
configuration error when both a world path and a world name are given
and when neither is given; an explicit world path alone resolves to
paths under it without error; a world name alone resolves to the paths
of the last matching installed world without error — but when the name
matches no installed world it does not fail: it returns empty paths and
no error. -/
theorem c5_amended_world_target_resolution (md : Except Err Path)
    (ws : List World) (t : ExportTarget) (name : String)
    (ht : t.target = "world") :
    (t.worldPath ≠ [] → t.worldName ≠ "" →
      GetExportPaths md (.ok ws) t name =
        ([], [], some .bothWorldNameAndPath)) ∧
    (t.worldPath ≠ [] → t.worldName = "" →
      GetExportPaths md (.ok ws) t name =
        (t.worldPath ++ ["behavior_packs", name ++ "_bp"],
         t.worldPath ++ ["resource_packs", name ++ "_rp"], none)) ∧
    (t.worldPath = [] → t.worldName = "" →
      GetExportPaths md (.ok ws) t name =
        ([], [], some .worldTargetNeedsNameOrPath)) ∧
    (∀ dir, t.worldPath = [] → t.worldName ≠ "" → md = .ok dir →
      (∀ w ∈ ws, w.name ≠ t.worldName) →
      GetExportPaths md (.ok ws) t name = ([], [], none)) ∧
    (∀ dir, t.worldPath = [] → t.worldName ≠ "" → md = .ok dir →
      (∃ w ∈ ws, w.name = t.worldName) →
      ∃ wl, wl ∈ ws ∧ wl.name = t.worldName ∧
        GetExportPaths md (.ok ws) t name =
          (wl.path ++ ["behavior_packs", name ++ "_bp"],
           wl.path ++ ["resource_packs", name ++ "_rp"], none)) := by
  refine ⟨?_, ?_, ?_, ?_, ?_⟩
  · intro hp hn
    simp [GetExportPaths, ht, hp, hn]
  · intro hp hn
    simp [GetExportPaths, ht, hp, hn]
  · intro hp hn
    simp [GetExportPaths, ht, hp, hn]
  · intro dir hp hn hmd hno
    subst hmd
    simp [GetExportPaths, ht, hp, hn, worldScan_nomatch ws t.worldName name hno]
  · intro dir hp hn hmd hex
    subst hmd
    obtain ⟨wl, hmem, hname, heq⟩ := worldScan_match ws t.worldName name hex
    exact ⟨wl, hmem, hname, by simp [GetExportPaths, ht, hp, hn, heq]⟩

/-! Prefix closure of well-formed stores. -/

theorem prefix_dropLast_of_proper {q p : Path} (hq : q <+: p)
    (hne : q ≠ p) : q <+: p.dropLast := by
  have hlt : q.length < p.length := by
    rcases Nat.lt_or_ge q.length p.length with h | h
    · exact h
    · exact absurd (hq.eq_of_length (Nat.le_antisymm hq.length_le h)) hne
  have htake : q = p.take q.length := List.prefix_iff_eq_take.mp hq
  rw [List.prefix_iff_eq_take, List.dropLast_eq_take, List.take_take]
  have hmin : min q.length (p.length - 1) = q.length := by omega
  rw [hmin, ← htake]

theorem WellFormed.dir_prefix_dir {fs : FileSystem} (hwf : WellFormed fs) :
    ∀ n p, p.length = n → p ∈ fs.dirs → ∀ q, q <+: p → q ∈ fs.dirs := by
  intro n
  induction n with
  | zero =>
    intro p hlen hp q hq
    have : p = [] := List.length_eq_zero.mp hlen
    subst this
    rw [List.prefix_nil.mp hq]
    exact hp
  | succ n ih =>
    intro p hlen hp q hq
    by_cases hqp : q = p
    · exact hqp ▸ hp
    · have hne : p ≠ [] := by
        intro h
        subst h
        simp at hlen
      have hd : p.dropLast ∈ fs.dirs := hwf.parent_dir p hp hne
      have hlen' : p.dropLast.length = n := by
        rw [List.length_dropLast, hlen]
        omega
      exact ih p.dropLast hlen' hd q (prefix_dropLast_of_proper hq hqp)

theorem WellFormed.entry_prefix_dir {fs : FileSystem} (hwf : WellFormed fs)
    {p q : Path} (hp : fs.entryExists p = true) (hq : q <+: p)
    (hne : q ≠ p) : q ∈ fs.dirs := by
  rw [FileSystem.entryExists_iff] at hp
  rcases hp with hp | hp
  · exact hwf.dir_prefix_dir p.length p rfl hp q hq
  · have hd : p.dropLast ∈ fs.dirs := hwf.parent_file p hp
    exact hwf.dir_prefix_dir p.dropLast.length p.dropLast rfl hd q
      (prefix_dropLast_of_proper hq hne)

/-! Characterization of GetFirstUnexistingSubpath. -/

theorem properPrefixes_snoc {p : Path} (hne : p ≠ []) :
    properPrefixes p = properPrefixes p.dropLast ++ [p] := by
  have hpos : 0 < p.length := List.length_pos.mpr hne
  unfold properPrefixes
  have hr : p.length = (p.length - 1) + 1 := by omega
  rw [List.length_dropLast, hr, List.range_succ, List.map_append]
  congr 1
  · apply List.map_congr_left
    intro i hi
    rw [List.mem_range] at hi
    rw [List.dropLast_eq_take, List.take_take]
    congr 1
    omega
  · simp only [List.map_cons, List.map_nil]
    congr 1
    have h2 : p.length - 1 + 1 = p.length := by omega
    rw [h2, List.take_length]

theorem self_mem_properPrefixes {p : Path} (hne : p ≠ []) :
    p ∈ properPrefixes p := by
  rw [properPrefixes_snoc hne]
  simp

theorem firstUnexisting_append (fs : FileSystem) (l1 l2 : List Path) :
    firstUnexisting fs (l1 ++ l2) =
      match firstUnexisting fs l1 with
      | .ok none => firstUnexisting fs l2
      | x => x := by
  induction l1 with
  | nil => rfl
  | cons q rest ih =>
    by_cases he : fs.entryExists q = true
    · by_cases hd : fs.isDir q = true
      · simp [firstUnexisting, he, hd, ih]
      · simp [firstUnexisting, he, hd]
    · simp only [Bool.not_eq_true] at he
      simp [firstUnexisting, he]

theorem firstUnexisting_all_dirs_iff (fs : FileSystem) (l : List Path) :
    firstUnexisting fs l = .ok none ↔ ∀ q ∈ l, fs.isDir q = true := by
  induction l with
  | nil => simp [firstUnexisting]
  | cons q rest ih =>
    by_cases he : fs.entryExists q = true
    · by_cases hd : fs.isDir q = true
      · simp [firstUnexisting, he, hd, ih]
      · simp [firstUnexisting, he, hd]
    · have he' : fs.entryExists q = false := by
        cases h : fs.entryExists q
        · rfl
        · exact absurd h he
      simp only [firstUnexisting, he', Bool.false_eq_true, if_false]
      constructor
      · intro h
        exact absurd h (by simp)
      · intro h
        have hd := h q (by simp)
        have : fs.entryExists q = true := by
          simp [FileSystem.entryExists, hd]
        rw [this] at he'
        exact absurd he' (by simp)

theorem mem_properPrefixes_iff {p q : Path} :
    q ∈ properPrefixes p ↔ (q <+: p ∧ q ≠ []) := by
  constructor
  · intro h
    obtain ⟨_, h2, h3⟩ := properPrefixes_mem h
    refine ⟨h3, ?_⟩
    intro hq
    subst hq
    simp at h2
  · rintro ⟨hq, hne⟩
    unfold properPrefixes
    rw [List.mem_map]
    have h1 : 1 ≤ q.length := List.length_pos.mpr hne
    have h2 : q.length ≤ p.length := hq.length_le
    refine ⟨q.length - 1, ?_, ?_⟩
    · rw [List.mem_range]
      omega
    · have h3 : q.length - 1 + 1 = q.length := by omega
      rw [h3]
      exact (List.prefix_iff_eq_take.mp hq).symm

theorem GetFirstUnexistingSubpath_some_spec (fs : FileSystem) :
    ∀ n p, p.length = n → ∀ u,
      GetFirstUnexistingSubpath fs p = .ok (some u) →
      u <+: p ∧ u ≠ [] ∧ fs.entryExists u = false ∧
        ∀ q, q <+: u → q ≠ u → q ≠ [] → fs.isDir q = true := by
  intro n
  induction n with
  | zero =>
    intro p hlen u h
    have : p = [] := List.length_eq_zero.mp hlen
    subst this
    exact absurd h (by simp [GetFirstUnexistingSubpath, properPrefixes,
      firstUnexisting])
  | succ n ih =>
    intro p hlen u h
    have hne : p ≠ [] := by
      intro hh
      subst hh
      simp at hlen
    unfold GetFirstUnexistingSubpath at h
    rw [properPrefixes_snoc hne, firstUnexisting_append] at h
    have hlen' : p.dropLast.length = n := by
      rw [List.length_dropLast, hlen]
      omega
    cases hfu : firstUnexisting fs (properPrefixes p.dropLast) with
    | error e =>
      rw [hfu] at h
      exact absurd h (by simp)
    | ok o =>
      cases o with
      | some v =>
        rw [hfu] at h
        simp only [Except.ok.injEq, Option.some.injEq] at h
        subst h
        obtain ⟨h1, h2, h3, h4⟩ := ih p.dropLast hlen' v hfu
        exact ⟨h1.trans (List.dropLast_prefix p), h2, h3, h4⟩
      | none =>
        rw [hfu] at h
        have hdirs := (firstUnexisting_all_dirs_iff fs _).mp hfu
        by_cases he : fs.entryExists p = true
        · by_cases hd : fs.isDir p = true
          · simp [firstUnexisting, he, hd] at h
          · simp [firstUnexisting, he, hd] at h
        · have he' : fs.entryExists p = false := by
            cases hh : fs.entryExists p
            · rfl
            · exact absurd hh he
          simp only [firstUnexisting, he', Bool.false_eq_true, if_false,
            Except.ok.injEq, Option.some.injEq] at h
          subst h
          refine ⟨List.prefix_refl p, hne, he', ?_⟩
          intro q hq hqne hqnil
          exact hdirs q (mem_properPrefixes_iff.mpr
            ⟨prefix_dropLast_of_proper hq hqne, hqnil⟩)

theorem mkdirAll_removeAll_restores {fs : FileSystem} {p u : Path}
    {fsm : FileSystem} (hwf : WellFormed fs)
    (hmk : osMkdirAll fs p = .ok fsm)
    (hu : u <+: p) (hmiss : fs.entryExists u = false)
    (hmin : ∀ q, q <+: u → q ≠ u → fs.isDir q = true) :
    osRemoveAll fsm u = fs := by
  have humem : fs.entryExists u ≠ true := by
    rw [hmiss]
    simp
  unfold osRemoveAll
  rw [osMkdirAll_ok_dirs hmk, osMkdirAll_ok_files hmk, List.filter_append]
  have hkeep : (fs.dirs.filter fun d => !(u.isPrefixOf d)) = fs.dirs := by
    rw [List.filter_eq_self]
    intro d hd
    cases hp : u.isPrefixOf d
    · rfl
    · exfalso
      have hpre : u <+: d := List.isPrefixOf_iff_prefix.mp hp
      have : u ∈ fs.dirs := hwf.dir_prefix_dir d.length d rfl hd u hpre
      exact humem ((FileSystem.entryExists_iff fs u).mpr (Or.inl this))
  have hdrop : (((properPrefixes p).filter fun q => !(fs.isDir q)).filter
      fun d => !(u.isPrefixOf d)) = [] := by
    rw [List.filter_eq_nil_iff]
    intro q hq
    have hqm := List.mem_filter.mp hq
    have hqp := mem_properPrefixes_iff.mp hqm.1
    have hnd : fs.isDir q = false := by
      have := hqm.2
      cases hh : fs.isDir q
      · rfl
      · rw [hh] at this
        exact absurd this (by simp)
    rcases List.prefix_or_prefix_of_prefix hqp.1 hu with hqu | huq
    · by_cases hque : q = u
      · subst hque
        simp [List.isPrefixOf_iff_prefix.mpr (List.prefix_refl q)]
      · rw [hmin q hqu hque] at hnd
        exact absurd hnd (by simp)
    · simp [List.isPrefixOf_iff_prefix.mpr huq]
  have hfkeep : (fs.files.filter fun f => !(u.isPrefixOf f.1)) = fs.files := by
    rw [List.filter_eq_self]
    intro f hf
    cases hp : u.isPrefixOf f.1
    · rfl
    · exfalso
      have hpre : u <+: f.1 := List.isPrefixOf_iff_prefix.mp hp
      have hfe : fs.entryExists f.1 = true := by
        rw [FileSystem.entryExists_iff]
        exact Or.inr (List.mem_map.mpr ⟨f, hf, rfl⟩)
      by_cases hue : u = f.1
      · rw [hue] at humem
        exact humem hfe
      · have : u ∈ fs.dirs := hwf.entry_prefix_dir hfe hpre hue
        exact humem ((FileSystem.entryExists_iff fs u).mpr (Or.inl this))
  rw [hkeep, hdrop, List.append_nil, hfkeep]

/-- C6: MkdirAll on a path that already exists creates nothing and
records nothing; MkdirAll that succeeds on a missing path records
exactly one inverse action removing the shallowest previously
non-existing prefix u of the path (every shorter prefix was already a
directory), and executing that inverse on the post-call store restores
the pre-call store exactly — so the undo removes all and only what the
call created and never touches a pre-existing directory. -/
theorem c6_mkdirall_minimal_undo (env : Env) (r : RevertableFsOperations)
    (fs : FileSystem) (p : Path) (hwf : WellFormed fs) :
    (fs.entryExists p = true →
      ∃ res, RevertableFsOperations.MkdirAll env r fs p = (res, r, fs)) ∧
    (fs.entryExists p = false →
      ∀ r1 fs1,
        RevertableFsOperations.MkdirAll env r fs p = (.ok (), r1, fs1) →
        ∃ u, u <+: p ∧ fs.entryExists u = false ∧
          (∀ q, q <+: u → q ≠ u → fs.isDir q = true) ∧
          r1.undoOperations = r.undoOperations ++ [.removeAllOf u] ∧
          runUndoOp env (.removeAllOf u) fs1 = (.ok (), fs)) := by
  constructor
  · intro hex
    unfold RevertableFsOperations.MkdirAll
    cases hg : GetFirstUnexistingSubpath fs p with
    | error e => exact ⟨.error (.wrapped e), rfl⟩
    | ok o =>
      cases o with
      | none => exact ⟨.ok (), rfl⟩
      | some u =>
        exfalso
        obtain ⟨h1, _, h3, _⟩ :=
          GetFirstUnexistingSubpath_some_spec fs p.length p rfl u hg
        by_cases hup : u = p
        · rw [hup, hex] at h3
          exact absurd h3 (by simp)
        · have hd : u ∈ fs.dirs := hwf.entry_prefix_dir hex h1 hup
          have : fs.entryExists u = true :=
            (FileSystem.entryExists_iff fs u).mpr (Or.inl hd)
          rw [h3] at this
          exact absurd this (by simp)
  · intro hmiss r1 fs1 hok
    unfold RevertableFsOperations.MkdirAll at hok
    cases hg : GetFirstUnexistingSubpath fs p with
    | error e =>
      rw [hg] at hok
      injection hok with hok1 _
      exact Except.noConfusion hok1
    | ok o =>
      cases o with
      | none =>
        exfalso
        unfold GetFirstUnexistingSubpath at hg
        have hdirs := (firstUnexisting_all_dirs_iff fs _).mp hg
        by_cases hne : p = []
        · subst hne
          have : fs.entryExists [] = true :=
            (FileSystem.entryExists_iff fs []).mpr (Or.inl hwf.root_dir)
          rw [hmiss] at this
          exact absurd this (by simp)
        · have hd := hdirs p (self_mem_properPrefixes hne)
          have : fs.entryExists p = true := by
            simp [FileSystem.entryExists, hd]
          rw [hmiss] at this
          exact absurd this (by simp)
      | some u =>
        rw [hg] at hok
        cases hmk : osMkdirAll fs p with
        | error e =>
          rw [hmk] at hok
          injection hok with hok1 _
          exact Except.noConfusion hok1
        | ok fsm =>
          rw [hmk] at hok
          injection hok with _ hok2
          injection hok2 with hok2 hok3
          obtain ⟨h1, _, h3, h4⟩ :=
            GetFirstUnexistingSubpath_some_spec fs p.length p rfl u hg
          have hmin : ∀ q, q <+: u → q ≠ u → fs.isDir q = true := by
            intro q hq hqne
            by_cases hqnil : q = []
            · subst hqnil
              exact (FileSystem.isDir_iff_mem fs []).mpr hwf.root_dir
            · exact h4 q hq hqne hqnil
          refine ⟨u, h1, h3, hmin, ?_, ?_⟩
          · rw [← hok2]
          · rw [← hok3]
            show ((Except.ok () : Except Err Unit), osRemoveAll fsm u) =
              ((Except.ok () : Except Err Unit), fs)
            rw [mkdirAll_removeAll_restores hwf hmk h1 h3 hmin]

/-- Witness for c6_mkdirall_minimal_undo: only the directory a exists;
MkdirAll of a/b/c records one inverse removing a/b, and that inverse
restores the original store. -/
theorem c6_mkdirall_minimal_undo_witness :
    ∃ u, u <+: (["a", "b", "c"] : Path) ∧
      (⟨[[], ["a"]], []⟩ : FileSystem).entryExists u = false ∧
      (∀ q, q <+: u → q ≠ u →
        (⟨[[], ["a"]], []⟩ : FileSystem).isDir q = true) ∧
      (⟨[UndoOp.removeAllOf ["a", "b"]], ["bk"], 0⟩ :
          RevertableFsOperations).undoOperations =
        (⟨[], ["bk"], 0⟩ : RevertableFsOperations).undoOperations ++
          [.removeAllOf u] ∧
      runUndoOp noFailEnv (.removeAllOf u)
          (⟨[[], ["a"], ["a", "b"], ["a", "b", "c"]], []⟩ : FileSystem) =
        (.ok (), (⟨[[], ["a"]], []⟩ : FileSystem)) :=
  (c6_mkdirall_minimal_undo noFailEnv ⟨[], ["bk"], 0⟩ ⟨[[], ["a"]], []⟩
      ["a", "b", "c"]
      ⟨by decide, by decide, by decide, by decide, by decide, by decide,
        by decide⟩).2 (by decide) ⟨[UndoOp.removeAllOf ["a", "b"]], ["bk"], 0⟩
    ⟨[[], ["a"], ["a", "b"], ["a", "b", "c"]], []⟩ (by decide)

/-! Lookup facts for setFile and removeEntry. -/

theorem osStat_none_iff (fs : FileSystem) (p : Path) :
    osStat fs p = none ↔ fs.entryExists p = false := by
  unfold osStat FileSystem.entryExists
  cases h1 : fs.isDir p <;> cases h2 : fs.isFile p <;> simp

theorem lookup_cons_self (k : Path) (v : Bytes) (es : List (Path × Bytes)) :
    List.lookup k ((k, v) :: es) = some v := by
  simp [List.lookup]

theorem lookup_cons_ne (k q : Path) (v : Bytes) (es : List (Path × Bytes))
    (h : q ≠ k) : List.lookup q ((k, v) :: es) = List.lookup q es := by
  simp [List.lookup, beq_eq_false_iff_ne.mpr h]

theorem lookup_mapReplace_self (files : List (Path × Bytes)) (p : Path)
    (c : Bytes) (hex : ∃ f ∈ files, f.1 = p) :
    (files.map fun f => if f.1 = p then (p, c) else f).lookup p = some c := by
  induction files with
  | nil =>
    obtain ⟨f, hf, _⟩ := hex
    exact absurd hf (by simp)
  | cons g rest ih =>
    obtain ⟨k, v⟩ := g
    by_cases hg : k = p
    · subst hg
      rw [List.map_cons, if_pos rfl]
      exact lookup_cons_self k c _
    · have hex' : ∃ f ∈ rest, f.1 = p := by
        obtain ⟨f, hf, hfp⟩ := hex
        rcases List.mem_cons.mp hf with rfl | hf'
        · exact absurd hfp hg
        · exact ⟨f, hf', hfp⟩
      rw [List.map_cons, if_neg hg,
        lookup_cons_ne k p v _ fun h => hg h.symm]
      exact ih hex'

theorem lookup_mapReplace_ne (files : List (Path × Bytes)) (p : Path)
    (c : Bytes) (q : Path) (hne : q ≠ p) :
    (files.map fun f => if f.1 = p then (p, c) else f).lookup q =
      files.lookup q := by
  induction files with
  | nil => rfl
  | cons g rest ih =>
    obtain ⟨k, v⟩ := g
    by_cases hg : k = p
    · subst hg
      rw [List.map_cons, if_pos rfl, lookup_cons_ne k q c _ hne,
        lookup_cons_ne k q v _ hne]
      exact ih
    · by_cases hqg : q = k
      · subst hqg
        rw [List.map_cons, if_neg hg, lookup_cons_self q v _,
          lookup_cons_self q v _]
      · rw [List.map_cons, if_neg hg, lookup_cons_ne k q v _ hqg,
          lookup_cons_ne k q v _ hqg]
        exact ih

theorem lookup_append_single_self (files : List (Path × Bytes)) (p : Path)
    (c : Bytes) (hno : ∀ f ∈ files, f.1 ≠ p) :
    (files ++ [(p, c)]).lookup p = some c := by
  induction files with
  | nil => exact lookup_cons_self p c []
  | cons g rest ih =>
    obtain ⟨k, v⟩ := g
    have hg : k ≠ p := hno (k, v) (by simp)
    rw [List.cons_append, lookup_cons_ne k p v _ fun h => hg h.symm]
    exact ih fun f hf => hno f (by simp [hf])

theorem lookup_append_single_ne (files : List (Path × Bytes)) (p : Path)
    (c : Bytes) (q : Path) (hne : q ≠ p) :
    (files ++ [(p, c)]).lookup q = files.lookup q := by
  induction files with
  | nil => exact lookup_cons_ne p q c [] hne
  | cons g rest ih =>
    obtain ⟨k, v⟩ := g
    by_cases hqg : q = k
    · subst hqg
      rw [List.cons_append, lookup_cons_self q v _, lookup_cons_self q v _]
    · rw [List.cons_append, lookup_cons_ne k q v _ hqg,
        lookup_cons_ne k q v _ hqg]
      exact ih

theorem setFile_getFile_self (fs : FileSystem) (p : Path) (c : Bytes) :
    (setFile fs p c).getFile p = some c := by
  unfold setFile setFileList FileSystem.getFile
  split
  · rename_i hany
    apply lookup_mapReplace_self
    rw [List.any_eq_true] at hany
    obtain ⟨f, hf, hfp⟩ := hany
    exact ⟨f, hf, of_decide_eq_true hfp⟩
  · rename_i hany
    apply lookup_append_single_self
    intro f hf
    by_cases hfp : f.1 = p
    · exact absurd (List.any_eq_true.mpr ⟨f, hf, decide_eq_true hfp⟩) hany
    · exact hfp

theorem setFile_getFile_ne (fs : FileSystem) (p : Path) (c : Bytes)
    (q : Path) (hne : q ≠ p) :
    (setFile fs p c).getFile q = fs.getFile q := by
  unfold setFile setFileList FileSystem.getFile
  split
  · exact lookup_mapReplace_ne _ _ _ _ hne
  · exact lookup_append_single_ne _ _ _ _ hne

theorem setFile_dirs (fs : FileSystem) (p : Path) (c : Bytes) :
    (setFile fs p c).dirs = fs.dirs := rfl

theorem lookup_filter_ne_self (files : List (Path × Bytes)) (p : Path) :
    (files.filter fun f => decide (f.1 ≠ p)).lookup p = none := by
  induction files with
  | nil => rfl
  | cons g rest ih =>
    obtain ⟨k, v⟩ := g
    by_cases hg : k = p
    · subst hg
      rw [List.filter_cons, if_neg (by simp)]
      exact ih
    · rw [List.filter_cons, if_pos (by simp [hg]),
        lookup_cons_ne k p v _ fun h => hg h.symm]
      exact ih

theorem lookup_filter_ne_other (files : List (Path × Bytes)) (p q : Path)
    (hne : q ≠ p) :
    (files.filter fun f => decide (f.1 ≠ p)).lookup q = files.lookup q := by
  induction files with
  | nil => rfl
  | cons g rest ih =>
    obtain ⟨k, v⟩ := g
    by_cases hg : k = p
    · subst hg
      rw [List.filter_cons, if_neg (by simp),
        lookup_cons_ne k q v _ hne]
      exact ih
    · by_cases hqg : q = k
      · subst hqg
        rw [List.filter_cons, if_pos (by simp [hg]),
          lookup_cons_self q v _, lookup_cons_self q v _]
      · rw [List.filter_cons, if_pos (by simp [hg]),
          lookup_cons_ne k q v _ hqg, lookup_cons_ne k q v _ hqg]
        exact ih

theorem removeEntry_getFile_self (fs : FileSystem) (p : Path) :
    (removeEntry fs p).getFile p = none :=
  lookup_filter_ne_self fs.files p

theorem removeEntry_getFile_ne (fs : FileSystem) (p q : Path)
    (hne : q ≠ p) : (removeEntry fs p).getFile q = fs.getFile q :=
  lookup_filter_ne_other fs.files p q hne

theorem removeEntry_dirs_of_not_dir {fs : FileSystem} {p : Path}
    (h : fs.isDir p = false) : (removeEntry fs p).dirs = fs.dirs := by
  unfold removeEntry
  rw [List.filter_eq_self]
  intro d hd
  by_cases hdp : d = p
  · subst hdp
    rw [(FileSystem.isDir_iff_mem fs d).mpr hd] at h
    exact absurd h (by simp)
  · exact decide_eq_true hdp

/-! More osMkdirAll bookkeeping. -/

theorem osMkdirAll_error_ex {fs : FileSystem} {p : Path} {e : Err}
    (h : osMkdirAll fs p = .error e) :
    ∃ q ∈ properPrefixes p, fs.isFile q = true := by
  unfold osMkdirAll at h
  split at h
  · rename_i hany
    exact List.any_eq_true.mp hany
  · exact absurd h (by simp)

theorem osMkdirAll_parent_isDir {fs : FileSystem} {tgt : Path}
    {fs1 : FileSystem} (h : osMkdirAll fs tgt.dropLast = .ok fs1) :
    fs1.isDir tgt = fs.isDir tgt := by
  rw [Bool.eq_iff_iff, FileSystem.isDir_iff_mem, FileSystem.isDir_iff_mem,
    osMkdirAll_ok_dirs h, List.mem_append]
  constructor
  · rintro (hm | hm)
    · exact hm
    · exfalso
      have hmem := (List.mem_filter.mp hm).1
      obtain ⟨hl1, hl2, _⟩ := properPrefixes_mem hmem
      rw [List.length_dropLast] at hl1
      omega
  · exact Or.inl

theorem osMkdirAll_ok_getFile {fs : FileSystem} {p : Path}
    {fs1 : FileSystem} (h : osMkdirAll fs p = .ok fs1) (q : Path) :
    fs1.getFile q = fs.getFile q := by
  unfold FileSystem.getFile
  rw [osMkdirAll_ok_files h]

/-- C10: when MoveOrCopy succeeds through its copy fallback (the rename
failed), the source file is still present with its original contents,
the single recorded inverse action is the removal of the target copy,
and executing that inverse removes exactly the target file and nothing
else (all other files and all directories survive). -/
theorem c10_move_or_copy_fallback_preserves_source (env : Env)
    (r : RevertableFsOperations) (fs : FileSystem) (src tgt : Path)
    (c : Bytes) (hc : fs.getFile src = some c)
    (hrn : env.renameFails src tgt = true)
    (hok : (RevertableFsOperations.MoveOrCopy env r fs src tgt).1 =
      .ok ()) :
    ∃ fs1,
      RevertableFsOperations.MoveOrCopy env r fs src tgt =
        (.ok (),
         { r with
            undoOperations := r.undoOperations ++ [.removeTarget tgt] },
         fs1) ∧
      fs1.getFile src = some c ∧
      fs1.getFile tgt = some c ∧
      runUndoOp env (.removeTarget tgt) fs1 =
        (.ok (), removeEntry fs1 tgt) ∧
      (removeEntry fs1 tgt).getFile tgt = none ∧
      (∀ q, q ≠ tgt → (removeEntry fs1 tgt).getFile q = fs1.getFile q) ∧
      (removeEntry fs1 tgt).dirs = fs1.dirs := by
  have hsf : fs.isFile src = true := by
    unfold FileSystem.isFile
    rw [hc]
    rfl
  cases hassert : RevertableFsOperations.moveOrCopyAssertions fs src tgt with
  | error e =>
    exfalso
    have hM : (RevertableFsOperations.MoveOrCopy env r fs src tgt).1 =
        .error e := by
      simp [RevertableFsOperations.MoveOrCopy, hassert]
    rw [hok] at hM
    exact absurd hM (by simp)
  | ok u0 =>
    have htgtne : fs.entryExists tgt = false := by
      unfold RevertableFsOperations.moveOrCopyAssertions at hassert
      cases hs1 : osStat fs src with
      | none =>
        rw [hs1] at hassert
        simp at hassert
      | some k1 =>
        rw [hs1] at hassert
        cases hs2 : osStat fs tgt with
        | some k2 =>
          rw [hs2] at hassert
          simp at hassert
        | none => exact (osStat_none_iff fs tgt).mp hs2
    have hsrcnetgt : src ≠ tgt := by
      intro hh
      subst hh
      have : fs.entryExists src = true := by
        simp [FileSystem.entryExists, hsf]
      rw [htgtne] at this
      exact absurd this (by simp)
    have htgtD : fs.isDir tgt = false := by
      have := htgtne
      simp only [FileSystem.entryExists, Bool.or_eq_false_iff] at this
      exact this.1
    cases hmk : osMkdirAll fs tgt.dropLast with
    | error e =>
      exfalso
      have hmove : RevertableFsOperations.movePriv env r fs src tgt =
          (.error (.mkdirFailed tgt), r, fs) := by
        simp [RevertableFsOperations.movePriv, hmk]
      have hcf : CopyFile fs src tgt = (.error (.mkdirFailed tgt), fs) := by
        simp [CopyFile, hmk]
      have hcopy : RevertableFsOperations.copyPriv r fs src tgt =
          (.error (.mkdirFailed tgt), r, fs) := by
        simp [RevertableFsOperations.copyPriv, hcf]
      have hM : (RevertableFsOperations.MoveOrCopy env r fs src tgt).1 =
          .error (.mkdirFailed tgt) := by
        simp [RevertableFsOperations.MoveOrCopy, hassert, hmove, hcopy]
      rw [hok] at hM
      exact absurd hM (by simp)
    | ok fsA =>
      have hrn1 : osRename env fsA src tgt =
          .error (.renameFailed src tgt) := by
        simp [osRename, hrn]
      have hmove : RevertableFsOperations.movePriv env r fs src tgt =
          (.error (.wrapped (.renameFailed src tgt)), r, fsA) := by
        simp [RevertableFsOperations.movePriv, hmk, hrn1]
      have hsfA : fsA.isFile src = true := by
        rw [osMkdirAll_ok_isFile hmk]
        exact hsf
      have hgfA : fsA.getFile src = some c := by
        rw [osMkdirAll_ok_getFile hmk]
        exact hc
      cases hmk2 : osMkdirAll fsA tgt.dropLast with
      | error e2 =>
        exfalso
        obtain ⟨q, hqmem, hqfile⟩ := osMkdirAll_error_ex hmk2
        rw [osMkdirAll_ok_isFile hmk] at hqfile
        have := osMkdirAll_ok_no_file_prefix hmk q hqmem
        rw [hqfile] at this
        exact absurd this (by simp)
      | ok fsB =>
        have hsfB : fsB.isFile src = true := by
          rw [osMkdirAll_ok_isFile hmk2]
          exact hsfA
        have hgfB : fsB.getFile src = some c := by
          rw [osMkdirAll_ok_getFile hmk2]
          exact hgfA
        have hdirtgtA : fsA.isDir tgt = false := by
          rw [osMkdirAll_parent_isDir hmk]
          exact htgtD
        have hdirtgtB : fsB.isDir tgt = false := by
          rw [osMkdirAll_parent_isDir hmk2]
          exact hdirtgtA
        cases hds : fs.isDir src with
        | true =>
          exfalso
          have hdsA : fsA.isDir src = true := by
            rw [osMkdirAll_ok_isDir_of_file hmk hsf]
            exact hds
          have hdsB : fsB.isDir src = true := by
            rw [osMkdirAll_ok_isDir_of_file hmk2 hsfA]
            exact hdsA
          have hcf : CopyFile fsA src tgt =
              (.error (.readFailed src), setFile fsB tgt []) := by
            simp [CopyFile, hmk2, hdsB, hdirtgtB]
          have hcopy : RevertableFsOperations.copyPriv r fsA src tgt =
              (.error (.readFailed src), r, setFile fsB tgt []) := by
            simp [RevertableFsOperations.copyPriv, hcf]
          have hM : (RevertableFsOperations.MoveOrCopy env r fs src tgt).1 =
              .error (.readFailed src) := by
            simp [RevertableFsOperations.MoveOrCopy, hassert, hmove, hcopy]
          rw [hok] at hM
          exact absurd hM (by simp)
        | false =>
          have hdsA : fsA.isDir src = false := by
            rw [osMkdirAll_ok_isDir_of_file hmk hsf]
            exact hds
          have hdsB : fsB.isDir src = false := by
            rw [osMkdirAll_ok_isDir_of_file hmk2 hsfA]
            exact hdsA
          have hcf : CopyFile fsA src tgt = (.ok (), setFile fsB tgt c) := by
            simp [CopyFile, hmk2, hdsB, hgfB, hdirtgtB]
          have hcopy : RevertableFsOperations.copyPriv r fsA src tgt =
              (.ok (),
               { r with
                  undoOperations :=
                    r.undoOperations ++ [.removeTarget tgt] },
               setFile fsB tgt c) := by
            simp [RevertableFsOperations.copyPriv, hcf]
          have hM : RevertableFsOperations.MoveOrCopy env r fs src tgt =
              (.ok (),
               { r with
                  undoOperations :=
                    r.undoOperations ++ [.removeTarget tgt] },
               setFile fsB tgt c) := by
            simp [RevertableFsOperations.MoveOrCopy, hassert, hmove, hcopy]
          have hfsrc : (setFile fsB tgt c).getFile src = some c := by
            rw [setFile_getFile_ne fsB tgt c src hsrcnetgt]
            exact hgfB
          have hftgt : (setFile fsB tgt c).getFile tgt = some c :=
            setFile_getFile_self fsB tgt c
          have hremove : runUndoOp env (.removeTarget tgt)
              (setFile fsB tgt c) =
              (.ok (), removeEntry (setFile fsB tgt c) tgt) := by
            have hfile : (setFile fsB tgt c).isFile tgt = true := by
              simp [FileSystem.isFile, hftgt]
            simp [runUndoOp, osRemove, hfile]
          refine ⟨setFile fsB tgt c, hM, hfsrc, hftgt, hremove, ?_, ?_, ?_⟩
          · exact removeEntry_getFile_self _ tgt
          · intro q hq
            exact removeEntry_getFile_ne _ tgt q hq
          · apply removeEntry_dirs_of_not_dir
            show (setFile fsB tgt c).isDir tgt = false
            rw [show (setFile fsB tgt c).isDir tgt = fsB.isDir tgt from rfl]
            exact hdirtgtB

/-- Witness for c10_move_or_copy_fallback_preserves_source: an
environment in which every rename fails forces the copy fallback. -/
theorem c10_move_or_copy_fallback_witness :
    ∃ fs1,
      RevertableFsOperations.MoveOrCopy (⟨fun _ _ => true⟩ : Env)
          (⟨[], ["bk"], 0⟩ : RevertableFsOperations)
          (⟨[[], ["s"]], [(["s", "f"], [7])]⟩ : FileSystem)
          ["s", "f"] ["t", "g"] =
        (.ok (),
         { (⟨[], ["bk"], 0⟩ : RevertableFsOperations) with
            undoOperations :=
              (⟨[], ["bk"], 0⟩ :
                RevertableFsOperations).undoOperations ++
                [.removeTarget ["t", "g"]] },
         fs1) ∧
      fs1.getFile ["s", "f"] = some [7] ∧
      fs1.getFile ["t", "g"] = some [7] ∧
      runUndoOp (⟨fun _ _ => true⟩ : Env) (.removeTarget ["t", "g"]) fs1 =
        (.ok (), removeEntry fs1 ["t", "g"]) ∧
      (removeEntry fs1 ["t", "g"]).getFile ["t", "g"] = none ∧
      (∀ q, q ≠ ["t", "g"] →
        (removeEntry fs1 ["t", "g"]).getFile q = fs1.getFile q) ∧
      (removeEntry fs1 ["t", "g"]).dirs = fs1.dirs :=
  c10_move_or_copy_fallback_preserves_source (⟨fun _ _ => true⟩ : Env)
    (⟨[], ["bk"], 0⟩ : RevertableFsOperations)
    (⟨[[], ["s"]], [(["s", "f"], [7])]⟩ : FileSystem) ["s", "f"] ["t", "g"]
    [7] (by decide) (by decide) (by decide)

/-! Sortedness of the insertion sort used by the model. -/

theorem insertSorted_perm {α : Type} (le : α → α → Bool) (a : α)
    (l : List α) : (insertSorted le a l).Perm (a :: l) := by
  induction l with
  | nil => exact List.Perm.refl _
  | cons b bs ih =>
    unfold insertSorted
    split
    · exact List.Perm.refl _
    · exact (List.Perm.cons b ih).trans (List.Perm.swap a b bs)

theorem insertionSort_perm {α : Type} (le : α → α → Bool) (l : List α) :
    (insertionSort le l).Perm l := by
  induction l with
  | nil => exact List.Perm.refl _
  | cons a as ih =>
    exact (insertSorted_perm le a (insertionSort le as)).trans
      (List.Perm.cons a ih)

theorem insertSorted_pairwise {α : Type} (le : α → α → Bool)
    (htot : ∀ a b, le a b = false → le b a = true)
    (htrans : ∀ a b c, le a b = true → le b c = true → le a c = true)
    (a : α) (l : List α) (hl : l.Pairwise fun x y => le x y = true) :
    (insertSorted le a l).Pairwise fun x y => le x y = true := by
  induction l with
  | nil => simp [insertSorted]
  | cons b bs ih =>
    unfold insertSorted
    split
    · rename_i hab
      refine List.Pairwise.cons ?_ hl
      intro x hx
      rcases List.mem_cons.mp hx with rfl | hx'
      · exact hab
      · exact htrans a b x hab (List.rel_of_pairwise_cons hl hx')
    · rename_i hab
      have hab' : le a b = false := by
        cases h : le a b
        · rfl
        · exact absurd h hab
      have hba : le b a = true := htot a b hab'
      refine List.Pairwise.cons ?_ (ih hl.of_cons)
      intro x hx
      have hx' := (insertSorted_perm le a bs).mem_iff.mp hx
      rcases List.mem_cons.mp hx' with rfl | hx''
      · exact hba
      · exact List.rel_of_pairwise_cons hl hx''

theorem insertionSort_pairwise {α : Type} (le : α → α → Bool)
    (htot : ∀ a b, le a b = false → le b a = true)
    (htrans : ∀ a b c, le a b = true → le b c = true → le a c = true)
    (l : List α) :
    (insertionSort le l).Pairwise fun x y => le x y = true := by
  induction l with
  | nil => simp [insertionSort]
  | cons a as ih => exact insertSorted_pairwise le htot htrans a _ ih

theorem pathLe_total_bool : ∀ a b : Path,
    pathLe a b = false → pathLe b a = true := by
  intro a b h
  rcases pathLe_total a b with h1 | h1
  · rw [h1] at h
    exact absurd h (by simp)
  · exact h1

/-! The sorted relative file list of a destination. -/

theorem filesUnder_pairwise_le (fs : FileSystem) (root : Path) :
    (filesUnder fs root).Pairwise fun a b => pathLe a b = true :=
  insertionSort_pairwise pathLe pathLe_total_bool
    (fun _ _ _ h1 h2 => pathLe_trans h1 h2) _

theorem filesUnder_nodup {fs : FileSystem} (hwf : WellFormed fs)
    (root : Path) : (filesUnder fs root).Nodup := by
  unfold filesUnder
  rw [(insertionSort_perm pathLe _).nodup_iff]
  apply List.Nodup.map_on
  · intro x hx y hy hxy
    have hx' := (List.mem_filter.mp hx).2
    have hy' := (List.mem_filter.mp hy).2
    rw [Bool.and_eq_true] at hx' hy'
    have hxp : root <+: x := List.isPrefixOf_iff_prefix.mp hx'.1
    have hyp : root <+: y := List.isPrefixOf_iff_prefix.mp hy'.1
    obtain ⟨tx, htx⟩ := hxp
    obtain ⟨ty, hty⟩ := hyp
    rw [← htx, ← hty, List.drop_left, List.drop_left] at hxy
    rw [← htx, ← hty, hxy]
  · exact hwf.files_nodup.filter _

theorem filesUnder_pairwise_lt {fs : FileSystem} (hwf : WellFormed fs)
    (root : Path) :
    (filesUnder fs root).Pairwise fun a b => pathLt a b = true := by
  have h1 := (filesUnder_pairwise_le fs root).and (filesUnder_nodup hwf root)
  exact h1.imp fun h => pathLt_of_pathLe_ne h.1 h.2

/-! The deletion-safety merge compares byte-wise what the walk delivers
in directory order. -/

/-- C4: the deletion-safety check is claimed to succeed whenever every
physically present relative file matches a recorded entry, and to fail
naming a file only when that file has no match in the recorded list.
On the destination holding only app-config, checked against the exact
list the code records for the previous tree (app/x before app-config:
the walk enters the directory app before reaching the file app-config),
every present relative string is recorded, yet the check fails and
names the recorded file app-config: the merge compares slash-joined
strings byte-wise, the hyphen sorts below the slash, so app-config is
judged to sort before app/x and the shared index never reaches the
entry recording it. -/
theorem c4_safety_check_rejects_recorded_file :
    (∀ s ∈ listFiles c4Fs ["dst"], s ∈ c4Removable) ∧
    c4AppConfig ∈ c4Removable ∧
    checkDeletionSafety c4Fs ["dst"] c4Removable =
      .error (.notRegolithFile c4AppConfig) := by
  decide

/-! The postorder walk: membership, order, and exclusion of the root. -/

theorem proper_prefix_length {p q : Path} (h : p <+: q) (hne : p ≠ q) :
    p.length < q.length := by
  rcases Nat.lt_or_ge p.length q.length with h1 | h1
  · exact h1
  · exact absurd (h.eq_of_length (Nat.le_antisymm h.length_le h1)) hne

theorem le_foldr_max : ∀ (l : List Nat) (x : Nat), x ∈ l →
    x ≤ l.foldr max 0 := by
  intro l
  induction l with
  | nil =>
    intro x hx
    exact absurd hx (by simp)
  | cons a as ih =>
    intro x hx
    rcases List.mem_cons.mp hx with rfl | hx'
    · exact le_max_left _ _
    · exact le_trans (ih x hx') (le_max_right _ _)

theorem entry_length_le (fs : FileSystem) {p : Path}
    (h : fs.entryExists p = true) : p.length ≤ maxEntryLen fs := by
  rw [FileSystem.entryExists_iff] at h
  apply le_foldr_max
  rw [List.mem_map]
  rcases h with h | h
  · exact ⟨p, List.mem_append.mpr (Or.inl h), rfl⟩
  · exact ⟨p, List.mem_append.mpr (Or.inr h), rfl⟩

theorem postBefore_irrefl : ∀ p : Path, ¬ postBefore p p := by
  intro p
  induction p with
  | nil => simp [postBefore]
  | cons a as ih =>
    simp only [postBefore]
    rintro (h | ⟨_, h⟩)
    · rw [strLt_irrefl] at h
      exact absurd h (by simp)
    · exact ih h

theorem postBefore_ne {p q : Path} (h : postBefore p q) : p ≠ q := by
  intro hh
  subst hh
  exact postBefore_irrefl p h

theorem postBefore_append_proper : ∀ (r t : Path), t ≠ [] →
    postBefore (r ++ t) r := by
  intro r
  induction r with
  | nil =>
    intro t ht
    cases t with
    | nil => exact absurd rfl ht
    | cons x xs => simp [postBefore]
  | cons a as ih =>
    intro t ht
    exact Or.inr ⟨rfl, ih t ht⟩

theorem postBefore_of_proper_prefix {r u : Path} (h : r <+: u)
    (hne : r ≠ u) : postBefore u r := by
  obtain ⟨t, ht⟩ := h
  subst ht
  apply postBefore_append_proper
  intro hh
  subst hh
  exact hne (by simp)

theorem postBefore_append_lt : ∀ (p : Path) (n m : String) (t1 t2 : Path),
    strLt n m = true → postBefore (p ++ n :: t1) (p ++ m :: t2) := by
  intro p
  induction p with
  | nil =>
    intro n m t1 t2 h
    exact Or.inl h
  | cons a as ih =>
    intro n m t1 t2 h
    exact Or.inr ⟨rfl, ih n m t1 t2 h⟩

theorem directChild_eq_some {p q : Path} {n : String} :
    directChild p q = some n ↔ q = p ++ [n] := by
  unfold directChild
  split
  · rename_i hcond
    rw [Bool.and_eq_true] at hcond
    have hpre : p <+: q := List.isPrefixOf_iff_prefix.mp hcond.1
    have hlen : q.length = p.length + 1 := by
      have := hcond.2
      rw [Nat.beq_eq_true_eq] at this
      exact this
    obtain ⟨t, ht⟩ := hpre
    have htlen : t.length = 1 := by
      have := congrArg List.length ht
      rw [List.length_append] at this
      omega
    cases t with
    | nil => exact absurd htlen (by simp)
    | cons x ts =>
      cases ts with
      | nil =>
        constructor
        · intro hl
          rw [← ht, List.getLast?_concat] at hl
          rw [← ht]
          injection hl with hl
          rw [hl]
        · intro hq
          rw [hq, List.getLast?_concat]
      | cons y tys => exact absurd htlen (by simp)
  · rename_i hcond
    constructor
    · intro h
      exact absurd h (by simp)
    · intro hq
      exfalso
      apply hcond
      rw [Bool.and_eq_true]
      refine ⟨List.isPrefixOf_iff_prefix.mpr (hq ▸ List.prefix_append p [n]),
        ?_⟩
      rw [Nat.beq_eq_true_eq, hq, List.length_append]
      rfl

theorem mem_childNamesRaw {fs : FileSystem} {p : Path} {n : String} :
    n ∈ childNamesRaw fs p ↔ fs.entryExists (p ++ [n]) = true := by
  unfold childNamesRaw
  rw [List.mem_dedup, List.mem_append, FileSystem.entryExists_iff]
  constructor
  · rintro (h | h)
    · rw [List.mem_filterMap] at h
      obtain ⟨d, hd, hdc⟩ := h
      rw [directChild_eq_some] at hdc
      exact Or.inl (hdc ▸ hd)
    · rw [List.mem_filterMap] at h
      obtain ⟨f, hf, hfc⟩ := h
      rw [directChild_eq_some] at hfc
      exact Or.inr (List.mem_map.mpr ⟨f, hf, hfc⟩)
  · rintro (h | h)
    · exact Or.inl
        (List.mem_filterMap.mpr ⟨p ++ [n], h, directChild_eq_some.mpr rfl⟩)
    · obtain ⟨f, hf, hfp⟩ := List.mem_map.mp h
      exact Or.inr (List.mem_filterMap.mpr ⟨f, hf, directChild_eq_some.mpr hfp⟩)

theorem mem_sortedChildNames {fs : FileSystem} {p : Path} {n : String} :
    n ∈ sortedChildNames fs p ↔ fs.entryExists (p ++ [n]) = true := by
  unfold sortedChildNames
  rw [(insertionSort_perm strLe _).mem_iff]
  exact mem_childNamesRaw

theorem sortedChildNames_pairwise (fs : FileSystem) (p : Path) :
    (sortedChildNames fs p).Pairwise fun a b => strLt a b = true := by
  have h1 := insertionSort_pairwise strLe strLe_total_bool strLe_trans
    (childNamesRaw fs p)
  have h2 : (sortedChildNames fs p).Nodup :=
    (insertionSort_perm strLe _).nodup_iff.mpr (List.nodup_dedup _)
  exact (h1.and h2).imp fun h => strLt_of_strLe_ne h.1 h.2

theorem postWalkAux_shape (fs : FileSystem) :
    ∀ fuel p q, q ∈ postWalkAux fs fuel p → p <+: q ∧ p ≠ q := by
  intro fuel
  induction fuel with
  | zero =>
    intro p q h
    exact absurd h (by simp [postWalkAux])
  | succ fuel ih =>
    intro p q h
    simp only [postWalkAux, List.mem_flatMap, List.mem_append,
      List.mem_singleton] at h
    obtain ⟨n, _, hq | hq⟩ := h
    · obtain ⟨h1, h2⟩ := ih (p ++ [n]) q hq
      refine ⟨(List.prefix_append p [n]).trans h1, ?_⟩
      intro hh
      subst hh
      have := h1.length_le
      rw [List.length_append] at this
      simp only [List.length_cons, List.length_nil] at this
      omega
    · subst hq
      refine ⟨List.prefix_append p [n], ?_⟩
      intro hh
      have := congrArg List.length hh
      rw [List.length_append] at this
      simp only [List.length_cons, List.length_nil] at this
      omega

theorem postWalkAux_mem {fs : FileSystem} (hwf : WellFormed fs) :
    ∀ fuel p, maxEntryLen fs < p.length + fuel →
      ∀ q, q ∈ postWalkAux fs fuel p ↔
        (fs.entryExists q = true ∧ p <+: q ∧ p ≠ q) := by
  intro fuel
  induction fuel with
  | zero =>
    intro p hfuel q
    constructor
    · intro h
      exact absurd h (by simp [postWalkAux])
    · rintro ⟨he, hpre, hne⟩
      exfalso
      have h1 := entry_length_le fs he
      have h2 := proper_prefix_length hpre hne
      omega
  | succ fuel ih =>
    intro p hfuel q
    simp only [postWalkAux, List.mem_flatMap, List.mem_append,
      List.mem_singleton]
    constructor
    · rintro ⟨n, hn, hq | hq⟩
      · have hchild : fs.entryExists (p ++ [n]) = true :=
          mem_sortedChildNames.mp hn
        have hfuel' : maxEntryLen fs < (p ++ [n]).length + fuel := by
          rw [List.length_append]
          simp only [List.length_cons, List.length_nil]
          omega
        obtain ⟨he, hpre, hne⟩ := (ih (p ++ [n]) hfuel' q).mp hq
        refine ⟨he, (List.prefix_append p [n]).trans hpre, ?_⟩
        intro hh
        subst hh
        have := hpre.length_le
        rw [List.length_append] at this
        simp only [List.length_cons, List.length_nil] at this
        omega
      · subst hq
        refine ⟨mem_sortedChildNames.mp hn, List.prefix_append p [n], ?_⟩
        intro hh
        have := congrArg List.length hh
        rw [List.length_append] at this
        simp only [List.length_cons, List.length_nil] at this
        omega
    · rintro ⟨he, hpre, hne⟩
      obtain ⟨t, ht⟩ := hpre
      cases t with
      | nil =>
        exfalso
        rw [List.append_nil] at ht
        exact hne ht
      | cons n ts =>
        have hpn : (p ++ [n]) <+: q := by
          refine ⟨ts, ?_⟩
          rw [← ht]
          simp
        have hentry : fs.entryExists (p ++ [n]) = true := by
          by_cases hh : p ++ [n] = q
          · rw [hh]
            exact he
          · exact (FileSystem.entryExists_iff fs (p ++ [n])).mpr
              (Or.inl (hwf.entry_prefix_dir he hpn hh))
        refine ⟨n, mem_sortedChildNames.mpr hentry, ?_⟩
        by_cases hh : p ++ [n] = q
        · exact Or.inr hh.symm
        · left
          have hfuel' : maxEntryLen fs < (p ++ [n]).length + fuel := by
            rw [List.length_append]
            simp only [List.length_cons, List.length_nil]
            omega
          exact (ih (p ++ [n]) hfuel' q).mpr ⟨he, hpn, hh⟩

theorem postWalkAux_pairwise {fs : FileSystem} (hwf : WellFormed fs) :
    ∀ fuel p, maxEntryLen fs < p.length + fuel →
      (postWalkAux fs fuel p).Pairwise postBefore := by
  intro fuel
  induction fuel with
  | zero =>
    intro p _
    simp [postWalkAux]
  | succ fuel ih =>
    intro p hfuel
    simp only [postWalkAux]
    have hblocks : ∀ names : List String,
        names.Pairwise (fun a b => strLt a b = true) →
        (∀ n ∈ names, fs.entryExists (p ++ [n]) = true) →
        (names.flatMap fun n =>
          postWalkAux fs fuel (p ++ [n]) ++ [p ++ [n]]).Pairwise
            postBefore := by
      intro names
      induction names with
      | nil =>
        intro _ _
        simp
      | cons n ns ihn =>
        intro hpw hent
        rw [List.flatMap_cons, List.pairwise_append]
        have hfuel' : maxEntryLen fs < (p ++ [n]).length + fuel := by
          rw [List.length_append]
          simp only [List.length_cons, List.length_nil]
          omega
        refine ⟨?_, ihn hpw.of_cons fun m hm => hent m (by simp [hm]), ?_⟩
        · rw [List.pairwise_append]
          refine ⟨ih (p ++ [n]) hfuel', List.pairwise_singleton _ _, ?_⟩
          intro u hu v hv
          rw [List.mem_singleton] at hv
          subst hv
          obtain ⟨hpre, hne⟩ := postWalkAux_shape fs fuel (p ++ [n]) u hu
          exact postBefore_of_proper_prefix hpre hne
        · intro u hu v hv
          rw [List.mem_flatMap] at hv
          obtain ⟨m, hm, hvm⟩ := hv
          have hnm : strLt n m = true := List.rel_of_pairwise_cons hpw hm
          have hun : (p ++ [n]) <+: u := by
            rcases List.mem_append.mp hu with h1 | h1
            · exact (postWalkAux_shape fs fuel (p ++ [n]) u h1).1
            · rw [List.mem_singleton] at h1
              subst h1
              exact List.prefix_refl _
          have hvn : (p ++ [m]) <+: v := by
            rcases List.mem_append.mp hvm with h1 | h1
            · exact (postWalkAux_shape fs fuel (p ++ [m]) v h1).1
            · rw [List.mem_singleton] at h1
              subst h1
              exact List.prefix_refl _
          obtain ⟨su, hsu⟩ := hun
          obtain ⟨sv, hsv⟩ := hvn
          rw [← hsu, ← hsv, List.append_assoc, List.append_assoc]
          exact postBefore_append_lt p n m su sv hnm
    exact hblocks (sortedChildNames fs p) (sortedChildNames_pairwise fs p)
      fun n hn => mem_sortedChildNames.mp hn

/-- C9: for an existing directory root, PostorderWalkDir never delivers
the root itself to the walk function; it delivers exactly the proper
descendants of the root, each exactly once, in postorder (every entry
before every ancestor of it, siblings and their subtrees in sorted name
order, which the postBefore relation captures pairwise). -/
theorem c9_postorder_walk_proper_descendants (fs : FileSystem)
    (root : Path) (hwf : WellFormed fs) (hroot : fs.isDir root = true) :
    root ∉ PostorderWalkDir fs root ∧
    (∀ q, q ∈ PostorderWalkDir fs root ↔
      (fs.entryExists q = true ∧ root <+: q ∧ q ≠ root)) ∧
    (PostorderWalkDir fs root).Nodup ∧
    (PostorderWalkDir fs root).Pairwise postBefore := by
  have hstat : osStat fs root = some .dirKind := by
    unfold osStat
    rw [hroot]
    rfl
  have hentry : fs.entryExists root = true := by
    simp [FileSystem.entryExists, hroot]
  have hfuel : maxEntryLen fs <
      root.length + (maxEntryLen fs + 1 - root.length) := by
    have := entry_length_le fs hentry
    omega
  have hPW : PostorderWalkDir fs root =
      postWalkAux fs (maxEntryLen fs + 1 - root.length) root := by
    unfold PostorderWalkDir
    rw [hstat]
  rw [hPW]
  have hpair := postWalkAux_pairwise hwf _ root hfuel
  refine ⟨?_, ?_, ?_, hpair⟩
  · intro h
    exact ((postWalkAux_mem hwf _ root hfuel root).mp h).2.2 rfl
  · intro q
    rw [postWalkAux_mem hwf _ root hfuel q]
    exact and_congr_right fun _ => and_congr_right fun _ => ne_comm
  · exact hpair.imp fun h => postBefore_ne h

/-- Witness for c9_postorder_walk_proper_descendants: a small tree with
a nested directory and two files. -/
theorem c9_postorder_walk_witness :
    (["r"] : Path) ∉ PostorderWalkDir
        (⟨[[], ["r"], ["r", "a"], ["r", "b"]],
          [(["r", "a", "f"], [1]), (["r", "z"], [2])]⟩ : FileSystem)
        ["r"] ∧
    (∀ q, q ∈ PostorderWalkDir
        (⟨[[], ["r"], ["r", "a"], ["r", "b"]],
          [(["r", "a", "f"], [1]), (["r", "z"], [2])]⟩ : FileSystem)
        ["r"] ↔
      ((⟨[[], ["r"], ["r", "a"], ["r", "b"]],
          [(["r", "a", "f"], [1]), (["r", "z"], [2])]⟩ :
            FileSystem).entryExists q = true ∧
        (["r"] : Path) <+: q ∧ q ≠ ["r"])) ∧
    (PostorderWalkDir
        (⟨[[], ["r"], ["r", "a"], ["r", "b"]],
          [(["r", "a", "f"], [1]), (["r", "z"], [2])]⟩ : FileSystem)
        ["r"]).Nodup ∧
    (PostorderWalkDir
        (⟨[[], ["r"], ["r", "a"], ["r", "b"]],
          [(["r", "a", "f"], [1]), (["r", "z"], [2])]⟩ : FileSystem)
        ["r"]).Pairwise postBefore :=
  c9_postorder_walk_proper_descendants
    (⟨[[], ["r"], ["r", "a"], ["r", "b"]],
      [(["r", "a", "f"], [1]), (["r", "z"], [2])]⟩ : FileSystem) ["r"]
    ⟨by decide, by decide, by decide, by decide, by decide, by decide,
      by decide⟩ (by decide)

/-- Witness for c5_amended_world_target_resolution: both a world path
and a world name given is rejected. -/
theorem c5_amended_world_target_resolution_witness :
    GetExportPaths (.ok ["mj"]) (.ok [])
        (⟨"world", [], [], ["wp"], "w", false⟩ : ExportTarget) "p" =
      ([], [], some .bothWorldNameAndPath) :=
  (c5_amended_world_target_resolution (.ok ["mj"]) []
      (⟨"world", [], [], ["wp"], "w", false⟩ : ExportTarget) "p" rfl).1
    (by decide) (by decide)

end Regolith
